import Mathlib

/-!
Verification of the turn-resolution core of the Spirit roguelike.

This file gives a shallow embedding, in Lean, of the parts of the Python
source relevant to the frozen claims:

* `src/coordinates.py` — integer coordinate pairs and Chebyshev geometry;
* `src/queue.py`       — the `PriorityQueue` used by the scheduler;
* `src/level.py`       — passability, the pathfinder adjacency relation,
                         `Level.next` and `Level.kill`;
* `src/pf.py`          — breadth-first-search shortest paths;
* `src/fov.py`         — field-of-view recalculation;
* `src/cond.py` and `src/dude.py` — conditions, hit points, monster AI.

Python ints are modelled as `Int` (Python 2 `/` on ints is floor division,
modelled by `Int.fdiv`).  Python lists are Lean lists; Python dicts and sets
are association lists / membership-managed lists.  Code that can raise is
modelled with `Option` / `Except`.  Unbounded `while` loops are modelled with
explicit fuel; the concrete fuel passed by top-level entry points is shown to
be sufficient where a claim needs termination.
-/

set_option autoImplicit false

namespace Spirit

/-! ## Coordinates (`src/coordinates.py`) -/

/-- Integer coordinate pair, as used throughout the Python source. -/
abbrev Coord := Int × Int

/-- Literal translation of `coordinates.DIRECTIONS`. -/
def DIRECTIONS : List Coord :=
  [(-1, -1), (-1, 0), (-1, 1), (0, 1), (1, 1), (1, 0), (1, -1), (0, -1)]

/-- Translation of `coordinates.add`. -/
def coordAdd (c1 c2 : Coord) : Coord := (c1.1 + c2.1, c1.2 + c2.2)

/-- Translation of `coordinates.subtract` (on pairs). -/
def coordSub (c1 c2 : Coord) : Coord := (c1.1 - c2.1, c1.2 - c2.2)

/-- Translation of `coordinates.adjacent_coords`: the eight neighbours. -/
def adjacent_coords (c : Coord) : List Coord :=
  DIRECTIONS.map (fun d => (c.1 + d.1, c.2 + d.2))

/-- Translation of `coordinates.minimumPath`: Chebyshev distance
`max(abs(dx), abs(dy))`. -/
def minimumPath (c1 c2 : Coord) : Int :=
  max (c2.1 - c1.1).natAbs (c2.2 - c1.2).natAbs

/-- Translation of `coordinates.are_diagonally_adjacent`. -/
def are_diagonally_adjacent (c1 c2 : Coord) : Bool :=
  (c1.1 - c2.1).natAbs = 1 && (c1.2 - c2.2).natAbs = 1

/-- Translation of `coordinates.adjacent`: `distance(c1, c2) < 1.5`.  The
Euclidean distance of two integer points is below `1.5` exactly when the
squared distance is at most `2`; the Python float computation is exact on
these small integers, so the comparison is modelled integrally. -/
def adjacent (c1 c2 : Coord) : Bool :=
  (c2.1 - c1.1) * (c2.1 - c1.1) + (c2.2 - c1.2) * (c2.2 - c1.2) ≤ 2

/-- Translation of `coordinates.legal` / `Level.legalCoordinates` (both test
`0 ≤ c[i] < dimensions[i]` for each of the two components). -/
def legalCoordinates (dims : Coord) (c : Coord) : Bool :=
  0 ≤ c.1 && c.1 < dims.1 && 0 ≤ c.2 && c.2 < dims.2

/-! ## The priority queue (`src/queue.py`)

The queue state is the internal list `_list` of `(item, priority)` pairs plus
`last_item_priority`.  `put` walks the list from the front and inserts the new
entry before the first existing entry of strictly greater priority (so a new
entry goes after all entries of equal priority); `get` pops the front.
-/

/-- Translation of the loop body of `PriorityQueue.put` acting on the internal
list: insert before the first entry whose priority strictly exceeds the new
one, else append. -/
def putList {α : Type} (l : List (α × Int)) (item : α) (priority : Int) :
    List (α × Int) :=
  match l with
  | [] => [(item, priority)]
  | e :: es =>
      if priority < e.2 then (item, priority) :: e :: es
      else e :: putList es item priority

/-- State of a `PriorityQueue`. -/
structure PQ (α : Type) where
  _list : List (α × Int)
  last_item_priority : Int

/-- Translation of `PriorityQueue.__init__`. -/
def PQ.empty {α : Type} : PQ α := ⟨[], 0⟩

/-- Translation of `PriorityQueue.put`. -/
def PQ.put {α : Type} (q : PQ α) (item : α) (priority : Int) : PQ α :=
  { q with _list := putList q._list item priority }

/-- Translation of `PriorityQueue.isEmpty`. -/
def PQ.isEmpty {α : Type} (q : PQ α) : Bool := q._list.length = 0

/-- Translation of `PriorityQueue.get`; `none` models the `IndexError` raised
on an empty queue. -/
def PQ.get {α : Type} (q : PQ α) : Option (α × PQ α) :=
  match q._list with
  | [] => none
  | e :: es => some (e.1, ⟨es, e.2⟩)

/-- Translation of `PriorityQueue.priority_interval`; `none` models the
`IndexError` raised on an empty queue. -/
def PQ.priority_interval {α : Type} (q : PQ α) : Option Int :=
  match q._list with
  | [] => none
  | e :: _ => some (e.2 - q.last_item_priority)

/-- Repeatedly call `get` (at most `fuel` times) and collect the returned
items, modelling a sequence of successive `get()` calls. -/
def drainAux {α : Type} : Nat → PQ α → List α
  | 0, _ => []
  | fuel + 1, q =>
      match q.get with
      | none => []
      | some (a, q') => a :: drainAux fuel q'

/-- All items obtained by successive `get()` calls until the queue is empty. -/
def PQ.drain {α : Type} (q : PQ α) : List α := drainAux q._list.length q

/-- Queue resulting from a sequence of `put` calls on a fresh queue. -/
def mkQueue {α : Type} (puts : List (α × Int)) : PQ α :=
  puts.foldl (fun q e => q.put e.1 e.2) PQ.empty

/-! ### `PriorityQueue.erase`

The Python method first collects, front to back, the indices of all entries
whose item equals the argument, prepending each to `indices_to_erase` (so the
collected list is in decreasing order), raises `ValueError` when the list is
empty, and then deletes the collected indices one by one (backwards).  We
translate that literally and then prove that the net effect is a `filter`.
-/

/-- Indices (in decreasing order) of the entries of `l` satisfying `P`;
models the `indices_to_erase` list built by `PriorityQueue.erase`. -/
def idxsToErase {β : Type} (P : β → Bool) (l : List β) : List Nat :=
  ((List.range l.length).filter (fun i =>
    match l[i]? with
    | some e => P e
    | none => false)).reverse

/-- Delete the given indices from `l`, one `del` at a time, in list order. -/
def eraseAtIdxs {β : Type} (l : List β) (idxs : List Nat) : List β :=
  idxs.foldl (fun acc i => acc.eraseIdx i) l

/-- Translation of `PriorityQueue.erase`; `none` models the `ValueError`
raised when the item has no entry in the queue. -/
def PQ.erase {α : Type} [DecidableEq α] (q : PQ α) (item : α) : Option (PQ α) :=
  let idxs := idxsToErase (fun e => decide (e.1 = item)) q._list
  if idxs = [] then none
  else some { q with _list := eraseAtIdxs q._list idxs }

/-! ## Levels, as the pathfinder and FOV observe them (`src/level.py`)

For pathfinding and visibility a `Level` is observed only through
`legalCoordinates`, `isEmpty` (is the dungeon glyph at a square in
`PASSABLE_TERRAIN`?) and membership of a square in `dudeLayer`.  We model the
dungeon array by its induced passability predicate and the dude layer by its
occupancy predicate.
-/

structure LevelG where
  dimensions : Coord
  /-- Models `self.dungeonGlyph(c) in PASSABLE_TERRAIN`. -/
  passable : Coord → Bool
  /-- Models `c in self.dudeLayer`. -/
  occupied : Coord → Bool

/-- Translation of `Level.legalCoordinates`. -/
def LevelG.legal (lvl : LevelG) (c : Coord) : Bool :=
  legalCoordinates lvl.dimensions c

/-- Translation of `Level.isEmpty`. -/
def LevelG.isEmpty (lvl : LevelG) (c : Coord) : Bool := lvl.passable c

/-- Translation of `Level.are_immediately_accessible`. -/
def are_immediately_accessible (lvl : LevelG) (coords1 coords2 : Coord) : Bool :=
  let result := (lvl.legal coords1 && lvl.legal coords2) &&
      (lvl.isEmpty coords1 && lvl.isEmpty coords2) &&
      decide (minimumPath coords1 coords2 = 1)
  if are_diagonally_adjacent coords1 coords2 then
    result && (lvl.isEmpty (coords1.1, coords2.2) && lvl.isEmpty (coords2.1, coords1.2))
  else result

/-- Translation of `Level.immediately_accessible_squares`. -/
def immediately_accessible_squares (lvl : LevelG) (coords : Coord) : List Coord :=
  (adjacent_coords coords).filter (fun x => are_immediately_accessible lvl coords x)

/-! ## The path finder (`src/pf.py`)

Errors: `.pathfinding` models a raised `exc.PathfindingError` (the only kind
caught by `find_shortest_path`); `.nameError` models the unqualified
`PathfindingError` on line 68 of `pf.py`, which is a `NameError` in the
source and is not caught; `.keyError` models a dict `KeyError`; `.fuelout`
stands for non-termination of an unbounded `while` loop.  The `while` loops
carry explicit fuel; the top-level entry point passes `pfFuel`, which the
theorems below show is always sufficient.
-/

inductive PfErr where
  | pathfinding
  | nameError
  | keyError
  | fuelout
deriving DecidableEq

/-- The `predecessors` dict: `none` models an absent key, `some none` a key
stored with value `None` (the source), `some (some h)` a stored predecessor. -/
abbrev Preds := Coord → Option (Option Coord)

/-- Dict assignment `predecessors[c] = v`. -/
def predsUpdate (p : Preds) (c : Coord) (v : Option Coord) : Preds :=
  fun x => if x = c then some v else p x

/-- State of the BFS `while` loop in `_breadth_first_search_predecessors`. -/
structure BfsState where
  settled : List Coord
  horizon : List Coord
  preds : Preds

/-- Inner `for adjacent in adjacent_coords` loop: add each batch element to
`new_horizon` and record its predecessor. -/
def bfsBatch (parent : Coord) (batch : List Coord)
    (acc : List Coord × Preds) : List Coord × Preds :=
  batch.foldl
    (fun a c =>
      ((if c ∈ a.1 then a.1 else a.1 ++ [c]), predsUpdate a.2 c (some parent)))
    acc

/-- Body of the `for coords in horizon` loop: filter the neighbours of
`coords` against `settled`, `horizon` and the current `new_horizon`, then
process the batch. -/
def bfsRoundStep (settled horizon : List Coord) (adj : Coord → List Coord)
    (acc : List Coord × Preds) (coords : Coord) : List Coord × Preds :=
  let batch := (adj coords).filter
    (fun c => !decide (c ∈ settled) && !decide (c ∈ horizon) && !decide (c ∈ acc.1))
  bfsBatch coords batch acc

/-- One iteration of the BFS `while` loop: expand every horizon cell, then
`settled.update(horizon); horizon = new_horizon`. -/
def bfsRound (adj : Coord → List Coord) (s : BfsState) : BfsState :=
  let res := s.horizon.foldl (bfsRoundStep s.settled s.horizon adj) ([], s.preds)
  ⟨s.settled ++ s.horizon, res.1, res.2⟩

/-- The BFS `while` loop of `_breadth_first_search_predecessors`. -/
def bfsLoop (adj : Coord → List Coord) (dest : Option Coord) :
    Nat → BfsState → Except PfErr BfsState
  | 0, _ => .error .fuelout
  | fuel + 1, s =>
      match dest with
      | some d =>
          if d ∈ s.settled then .ok s
          else if s.horizon.isEmpty then .error .pathfinding
          else bfsLoop adj dest fuel (bfsRound adj s)
      | none =>
          if s.horizon.isEmpty then .ok s
          else bfsLoop adj dest fuel (bfsRound adj s)

/-- Translation of `_breadth_first_search_predecessors`. -/
def breadth_first_search_predecessors (adj : Coord → List Coord)
    (source : Coord) (dest : Option Coord) (fuel : Nat) : Except PfErr Preds :=
  (bfsLoop adj dest fuel ⟨[], [source], predsUpdate (fun _ => none) source none⟩).map
    BfsState.preds

/-- The path-rebuilding `while` loop at the end of `_find_shortest_path`:
`while predecessors[current] is not None: path.insert(0, current); ...`
followed by `path.insert(0, source)`. -/
def rebuildPath (preds : Preds) (source : Coord) :
    Nat → Coord → List Coord → Except PfErr (List Coord)
  | 0, _, _ => .error .fuelout
  | fuel + 1, current, path =>
      match preds current with
      | none => .error .keyError
      | some none => .ok (source :: path)
      | some (some prev) => rebuildPath preds source fuel prev (current :: path)

/-- Translation of `_find_shortest_path`. -/
def find_shortest_path_aux (adj : Coord → List Coord)
    (source destination : Coord) (fuel : Nat) : Except PfErr (List Coord) :=
  match breadth_first_search_predecessors adj source (some destination) fuel with
  | .error e => .error e
  | .ok preds =>
      match preds destination with
      | none => .error .nameError
      | some _ => rebuildPath preds source fuel destination []

/-- Translation of the `adjacent_squares_function` closures defined inside
`find_shortest_path`: passable neighbours, excluding squares occupied by a
dude other than at `source` (and, when the destination need not be clear,
`destination`). -/
def adjacent_squares_function (lvl : LevelG) (source destination : Coord)
    (destination_must_be_clear : Bool) (square : Coord) : List Coord :=
  if destination_must_be_clear then
    (immediately_accessible_squares lvl square).filter
      (fun i => !lvl.occupied i || decide (i = source))
  else
    (immediately_accessible_squares lvl square).filter
      (fun i => !lvl.occupied i || decide (i = source) || decide (i = destination))

/-- Fuel sufficient for both `while` loops of the pathfinder on `lvl` (one
more than the largest possible number of settled cells, plus one). -/
def pfFuel (lvl : LevelG) : Nat :=
  lvl.dimensions.1.toNat * lvl.dimensions.2.toNat + 2

/-- Translation of `find_shortest_path`: build the adjacency closure, run the
search, and catch `exc.PathfindingError` (only) as the empty path. -/
def find_shortest_path (lvl : LevelG) (source destination : Coord)
    (destination_must_be_clear : Bool) : Except PfErr (List Coord) :=
  match find_shortest_path_aux
      (adjacent_squares_function lvl source destination destination_must_be_clear)
      source destination (pfFuel lvl) with
  | .error .pathfinding => .ok []
  | r => r

/-- One adjacency step of the graph searched by the BFS. -/
def PfStep (adj : Coord → List Coord) (a b : Coord) : Prop := b ∈ adj a

/-- Reachability in the graph searched by the BFS; "a path exists from `a` to
`b`". -/
def Reaches (adj : Coord → List Coord) (a b : Coord) : Prop :=
  Relation.ReflTransGen (PfStep adj) a b

/-! ### Properties of one BFS round -/

/-- Structural well-formedness of the BFS state: `settled` and `horizon` are
duplicate-free and disjoint (they model Python sets). -/
def BfsWF (s : BfsState) : Prop :=
  s.settled.Nodup ∧ s.horizon.Nodup ∧ ∀ c ∈ s.horizon, c ∉ s.settled

/-! ### Termination and the unreachable case -/

/-! ### The open grid: BFS layers are Chebyshev spheres -/

/-- Chebyshev distance as a natural number (`minimumPath` is its image in
`Int`). -/
def chebN (c1 c2 : Coord) : Nat :=
  max (c2.1 - c1.1).natAbs (c2.2 - c1.2).natAbs

/-- One grid step from `c` towards `src`; a proof-side witness used to show
that every Chebyshev sphere around `src` inside the grid is nonempty and
adjacent to the next one in. -/
def stepToward (src c : Coord) : Coord :=
  (c.1 - (if src.1 < c.1 then 1 else if c.1 < src.1 then -1 else 0),
   c.2 - (if src.2 < c.2 then 1 else if c.2 < src.2 then -1 else 0))

/-- Invariant of the BFS loop on a fully open grid: after `k` rounds the
settled set is the open Chebyshev ball of radius `k` around the source, the
horizon is the sphere of radius `k`, and every discovered cell's recorded
predecessor is one layer closer to the source. -/
def OpenInv (lvl : LevelG) (src : Coord) (k : Nat) (s : BfsState) : Prop :=
  (∀ c, c ∈ s.settled ↔ (lvl.legal c = true ∧ chebN src c < k)) ∧
  (∀ c, c ∈ s.horizon ↔ (lvl.legal c = true ∧ chebN src c = k)) ∧
  s.preds src = some none ∧
  (∀ c, lvl.legal c = true → 0 < chebN src c → chebN src c ≤ k →
    ∃ h, s.preds c = some (some h) ∧ lvl.legal h = true ∧
      chebN src h + 1 = chebN src c)

/-! ## Field of view (`src/fov.py`)

The square scanned by `fov.recalculate` is the `2*FOV_RADIUS+1`-sided square
centered on the viewpoint.  The call into libtcod
(`tcod.map_compute_fov` / `tcod.map_is_in_fov`) is an external C library, not
code of this repository; it is modelled by an arbitrary oracle
`in_fov : Coord → Bool`.  The dude layer is modelled by its lookup function
`dudeAt` (`none` when no dude occupies the square).
-/

def FOV_RADIUS : Int := 4

/-- Python `range(a, b)` over integers. -/
def intRange (a b : Int) : List Int :=
  (List.range (b - a).toNat).map (fun (i : Nat) => a + (i : Int))

/-- Python `set.add` on the insertion-ordered list model of a set. -/
def setAdd {γ : Type} [DecidableEq γ] (l : List γ) (x : γ) : List γ :=
  if x ∈ l then l else l ++ [x]

/-- Body of the inner `for j in range(...)` loop of `fov.recalculate`:
`fov_set.add((i, j))`, and, when the square is not the viewpoint and a dude
stands there, `dude_set.add(...)`. -/
def fovInner {δ : Type} [DecidableEq δ] (in_fov : Coord → Bool)
    (dudeAt : Coord → Option δ) (initial_location : Coord) (i : Int)
    (acc : List Coord × List δ) (j : Int) : List Coord × List δ :=
  if in_fov (i, j) then
    if (i, j) ≠ initial_location then
      match dudeAt (i, j) with
      | some d => (setAdd acc.1 (i, j), setAdd acc.2 d)
      | none => (setAdd acc.1 (i, j), acc.2)
    else (setAdd acc.1 (i, j), acc.2)
  else acc

/-- Translation of `fov.recalculate`: scan the bounding square, collect the
cells the oracle reports visible, and the dudes standing on visible cells
other than the viewpoint itself.  Returns (visible cells, visible dudes). -/
def fov_recalculate {δ : Type} [DecidableEq δ] (in_fov : Coord → Bool)
    (dudeAt : Coord → Option δ) (initial_location : Coord) :
    List Coord × List δ :=
  (intRange (initial_location.1 - FOV_RADIUS)
      (initial_location.1 + FOV_RADIUS + 1)).foldl
    (fun acc i =>
      (intRange (initial_location.2 - FOV_RADIUS)
          (initial_location.2 + FOV_RADIUS + 1)).foldl
        (fovInner in_fov dudeAt initial_location i) acc)
    ([], [])

/-! ## Conditions and dudes (`src/cond.py`, `src/dude.py`)

The source's condition classes form a closed set; only `Haste` overrides the
`apply`/`cancel` hooks (and only to mutate the dude's speed).  The code runs
under Python 2, where `/=` on ints is floor division, modelled by
`Int.fdiv`.  A dude's `conditions` dict is an association list keyed by
condition name.
-/

inductive CondKind where
  | base
  | stuck
  | haste
  | timebomb (timer : Int) (exploded : Bool)
  | resting
  | running (direction : Coord)
deriving DecidableEq

structure Condition where
  time : Int
  name : String
  kind : CondKind
deriving DecidableEq

/-- Translation of `cond.Haste.__init__`. -/
def Haste (duration : Int) : Condition := ⟨duration, "haste", CondKind.haste⟩

/-- Translation of `cond.Stuck.__init__` (the duration argument is ignored by
the source, which always passes 8 to the base constructor). -/
def Stuck (_duration : Int) : Condition := ⟨8, "stuck", CondKind.stuck⟩

/-- Dict lookup `m[k]` (first entry with the key; keys are unique in a real
dict). -/
def dictGet (m : List (String × Condition)) (k : String) : Option Condition :=
  (m.find? (fun e => decide (e.1 = k))).map Prod.snd

/-- Dict assignment `m[k] = v`. -/
def dictSet (m : List (String × Condition)) (k : String) (v : Condition) :
    List (String × Condition) :=
  if m.any (fun e => decide (e.1 = k)) then
    m.map (fun e => if e.1 = k then (k, v) else e)
  else m ++ [(k, v)]

/-- Dict deletion `del m[k]`. -/
def dictDel (m : List (String × Condition)) (k : String) :
    List (String × Condition) :=
  m.filter (fun e => !decide (e.1 = k))

/-- The fields of `Dude` that the condition system and `setHP` touch. -/
structure DudeState where
  speed : Int
  cur_HP : Int
  max_HP : Int
  conditions : List (String × Condition)
deriving DecidableEq

/-- Translation of the `apply` hooks of `src/cond.py`: only `Haste`
overrides the no-op base hook, with `dude_.speed /= 2` (Python 2 floor
division). -/
def condApply (c : Condition) (d : DudeState) : DudeState :=
  match c.kind with
  | CondKind.haste => { d with speed := d.speed.fdiv 2 }
  | _ => d

/-- Translation of the `cancel` hooks of `src/cond.py`: only `Haste`
overrides the no-op base hook, with `dude_.speed *= 2`. -/
def condCancel (c : Condition) (d : DudeState) : DudeState :=
  match c.kind with
  | CondKind.haste => { d with speed := d.speed * 2 }
  | _ => d

/-- Translation of `Dude.removeCondition`: run the stored condition's cancel
hook, then delete it; `none` models the `KeyError` when absent. -/
def removeCondition (d : DudeState) (condition_name : String) :
    Option DudeState :=
  match dictGet d.conditions condition_name with
  | some c =>
      let d1 := condCancel c d
      some { d1 with conditions := dictDel d1.conditions condition_name }
  | none => none

/-- Translation of `Dude.giveCondition`: if a same-named condition exists,
`removeCondition` it first; store the new condition; run its apply hook. -/
def giveCondition (d : DudeState) (condition : Condition) : Option DudeState :=
  match (if (dictGet d.conditions condition.name).isSome
      then removeCondition d condition.name else some d) with
  | none => none
  | some d1 =>
      some (condApply condition
        { d1 with conditions := dictSet d1.conditions condition.name condition })

/-- Translation of `Dude.setHP`. -/
def setHP (d : DudeState) (newHP : Int) : DudeState :=
  if newHP > d.max_HP then { d with cur_HP := d.max_HP }
  else { d with cur_HP := newHP }

/-- Modelled from the spec (§4.5): `attach(actor, condition)` replaces any
same-keyed condition — running the old condition's cancel hook first and
removing it — then stores the new condition, then runs the new condition's
attach hook.  Used as the specification side of claim C7. -/
def attach_per_spec (d : DudeState) (condition : Condition) : Option DudeState :=
  match dictGet d.conditions condition.name with
  | some old =>
      let afterCancel := condCancel old d
      let afterRemove :=
        { afterCancel with
          conditions := dictDel afterCancel.conditions condition.name }
      let afterStore :=
        { afterRemove with
          conditions := dictSet afterRemove.conditions condition.name condition }
      some (condApply condition afterStore)
  | none =>
      some (condApply condition
        { d with conditions := dictSet d.conditions condition.name condition })

/-- The pathfinder edge rule exactly as claim C4 states it: both cells legal
and passable, Chebyshev distance one, and a diagonal move is ruled out only
when BOTH orthogonal corner cells are impassable. -/
def edge_rule_as_claimed (lvl : LevelG) (src dest : Coord) : Prop :=
  lvl.legal src = true ∧ lvl.legal dest = true ∧
    lvl.passable src = true ∧ lvl.passable dest = true ∧
    minimumPath src dest = 1 ∧
    (are_diagonally_adjacent src dest = true →
      ¬(lvl.passable (src.1, dest.2) = false ∧
        lvl.passable (dest.1, src.2) = false))

/-- A 2×2 fully-legal level whose only impassable cell is `(0, 1)`.  Exactly
one corner cell of the diagonal move `(0,0) → (1,1)` is impassable there. -/
def cornerLevel : LevelG :=
  ⟨(2, 2), fun c => decide (c ≠ ((0 : Int), (1 : Int))), fun _ => false⟩

/-! ## Monster melee AI (`src/dude.py`, `src/rng.py`) -/

/-- The actions `Monster.closeToPlayer` can construct, tagged by their
`strcode` from `src/action.py`: `Attack` is STDATK, `SpecialMelee` is
SPMELEE. -/
inductive MAction where
  | attack (message : String)
  | specialMelee (code : String)
  | move (direction : Coord)
  | wait
deriving DecidableEq

/-- Translation of `rng.percentChance`, with the `random.randint(1, 100)`
draw `r` passed in explicitly as an oracle. -/
def percentChance (r : Int) (percent_integer : Int) : Bool :=
  r ≤ percent_integer

/-- Translation of `Monster.closeToPlayer` (the FIGHTING-state handler for
`AICode == "CLOSE"` once the player is in view): attack when adjacent —
a special melee with probability `specfreq` percent — else pathfind toward
the player.  `r` is the RNG draw consumed by `percentChance`; `none` models
an uncaught exception (`path[1]` on a one-cell path). -/
def closeToPlayer (lvl : LevelG) (coords : Coord) (spec : String)
    (specfreq : Int) (player_location : Coord) (r : Int) : Option MAction :=
  if adjacent player_location coords then
    if percentChance r specfreq then some (MAction.specialMelee spec)
    else some (MAction.attack "%(SOURCE_NAME)s attacks %(TARGET_NAME)s! (%(DAMAGE)d)")
  else
    match find_shortest_path lvl coords player_location false with
    | .error _ => none
    | .ok path =>
        if path = [] then some MAction.wait
        else
          match path with
          | p0 :: p1 :: _ => some (MAction.move (coordSub p1 p0))
          | _ => none

/-! ## The turn driver (`src/level.py`: `Level.next`, `Level.kill`,
`Level.resetQueue`)

Actors (dudes, the player, and events) are identified by values of an
arbitrary type `α`; `alive x` models `x.exists()`.  The behaviour of
`x.act()` — which may mutate the whole level, e.g. kill other actors — is a
parameter `actFn`, returning the new level state and the tick cost.  The
`while actor_ticks == 0 and next_actor.exists()` loop carries fuel (`none`
models non-termination); `levelNext` additionally returns the actor that was
popped and the list of states at which `act()` was invoked on it, so that
theorems can speak about every `act` call the loop makes.
-/

structure LevelState (α : Type) where
  queue : List (α × Int)
  lastPriority : Int
  time : Int
  dudes : List α
  events : List α
  player : α
  alive : α → Bool

/-- Translation of `Level.resetQueue`: a fresh queue holding the events, the
player, then every non-player dude, all at priority 0. -/
def resetQueue {α : Type} [DecidableEq α] (s : LevelState α) : LevelState α :=
  let q0 := s.events.foldl (fun l e => putList l e 0) []
  let q1 := putList q0 s.player 0
  let q2 := s.dudes.foldl
    (fun l p => if p = s.player then l else putList l p 0) q1
  { s with queue := q2, lastPriority := 0 }

/-- The `while actor_ticks == 0 and next_actor.exists()` loop of
`Level.next`.  Returns the final state, the final tick count, and the list
of states at which `act()` was called. -/
def actLoop {α : Type} (actFn : α → LevelState α → LevelState α × Int)
    (a : α) : Nat → LevelState α → Int →
    Option (LevelState α × Int × List (LevelState α))
  | 0, s, t => if t = 0 ∧ s.alive a = true then none else some (s, t, [])
  | fuel + 1, s, t =>
      if t = 0 ∧ s.alive a = true then
        match actLoop actFn a fuel (actFn a s).1 (actFn a s).2 with
        | none => none
        | some (s2, t2, log) => some (s2, t2, s :: log)
      else some (s, t, [])

/-- Body of `Level.next` after the queue has (possibly) been reset: advance
time by the priority interval, pop the next actor, run its act loop, and
re-enqueue it at `time + actor_ticks` only if it still exists.  The `[]`
case models the `IndexError` raised by `priority_interval` on an empty
queue (unreachable, since `resetQueue` enqueues the player). -/
def levelNextAux {α : Type} [DecidableEq α]
    (actFn : α → LevelState α → LevelState α × Int) (fuel : Nat)
    (s0 : LevelState α) : Option (LevelState α × α × List (LevelState α)) :=
  match s0.queue with
  | [] => none
  | e :: rest =>
      match actLoop actFn e.1 fuel
          { s0 with
            time := s0.time + (e.2 - s0.lastPriority),
            queue := rest,
            lastPriority := e.2 } 0 with
      | none => none
      | some (s2, ticks, log) =>
          some (if s2.alive e.1 = true
            then { s2 with queue := putList s2.queue e.1 (s2.time + ticks) }
            else s2, e.1, log)

/-- Translation of `Level.next`. -/
def levelNext {α : Type} [DecidableEq α]
    (actFn : α → LevelState α → LevelState α × Int) (fuel : Nat)
    (s : LevelState α) : Option (LevelState α × α × List (LevelState α)) :=
  levelNextAux actFn fuel (if s.queue.isEmpty then resetQueue s else s)

/-- First stage of `Level.kill`: `if target in self.dudeLayer: remove`. -/
def killStage1 {α : Type} [DecidableEq α] (target : α) (s : LevelState α) :
    LevelState α :=
  if target ∈ s.dudes then { s with dudes := s.dudes.erase target } else s

/-- Second stage of `Level.kill`: `if target in self.events: remove`. -/
def killStage2 {α : Type} [DecidableEq α] (target : α) (s : LevelState α) :
    LevelState α :=
  if target ∈ s.events then { s with events := s.events.erase target } else s

/-- The effect of `PriorityQueue.erase` on the queue entry list: collect the
indices of the target's entries and delete them back to front. -/
def eraseQueueEntries {α : Type} [DecidableEq α] (target : α)
    (q : List (α × Int)) : List (α × Int) :=
  eraseAtIdxs q (idxsToErase (fun e => decide (e.1 = target)) q)

/-- Third stage of `Level.kill`: `if target in self.__queue: erase` (erase
removes every entry of the item, back to front). -/
def killStage3 {α : Type} [DecidableEq α] (target : α) (s : LevelState α) :
    LevelState α :=
  if target ∈ s.queue.map Prod.fst
  then { s with queue := eraseQueueEntries target s.queue }
  else s

/-- Translation of `Level.kill`: run the three removal stages; `none` models
the `ValueError` raised when nothing was removed at any stage. -/
def killLevel {α : Type} [DecidableEq α] (target : α) (s : LevelState α) :
    Option (LevelState α) :=
  if decide (target ∈ s.dudes) ||
      decide (target ∈ (killStage1 target s).events) ||
      decide (target ∈ (killStage2 target (killStage1 target s)).queue.map Prod.fst)
  then some (killStage3 target (killStage2 target (killStage1 target s)))
  else none

/-- The death-removal invariant: a dead actor (one whose `exists()` is
false) has no presence anywhere in the level — not in the dude layer, not
among the events, with no queue entry, and it is not the player.  In the
source every death goes through `die()` → `Level.kill`, which establishes
exactly this. -/
def DeadGone {α : Type} (s : LevelState α) : Prop :=
  ∀ x, s.alive x = false →
    x ∉ s.dudes ∧ x ∉ s.events ∧ x ∉ s.queue.map Prod.fst ∧ x ≠ s.player

/-- Concrete two-actor level used to witness the scheduler theorems. -/
def demoLevel : LevelState Nat :=
  ⟨[(1, 0), (2, 0)], 0, 0, [1, 2], [], 1, fun _ => true⟩

/-- Concrete act behaviour used to witness the scheduler theorems: wait one
tick, change nothing. -/
def demoAct : Nat → LevelState Nat → LevelState Nat × Int :=
  fun _ s => (s, 1)

/-- Result of `killLevel 2 demoLevel`. -/
def demoKilled : LevelState Nat :=
  ⟨[(1, 0)], 0, 0, [1], [], 1, fun _ => true⟩

/-- State of `demoLevel` after its head entry has been popped. -/
def demoPopped : LevelState Nat :=
  ⟨[(2, 0)], 0, 0, [1, 2], [], 1, fun _ => true⟩

/-- Result state of `levelNext demoAct 3 demoLevel`. -/
def demoNext : LevelState Nat :=
  ⟨[(2, 0), (1, 1)], 0, 0, [1, 2], [], 1, fun _ => true⟩

/-- Act-call log of `levelNext demoAct 3 demoLevel`. -/
def demoLog : List (LevelState Nat) := [demoPopped]

/-- A fully open, fully legal 3×3 level with no actors. -/
def openLevel : LevelG := ⟨(3, 3), fun _ => true, fun _ => false⟩

/-- A 2×1 level whose destination cell `(1, 0)` is a wall, so nothing is
reachable from `(0, 0)` except itself. -/
def walledLevel : LevelG :=
  ⟨(2, 1), fun c => decide (c ≠ ((1 : Int), (0 : Int))), fun _ => false⟩

/-- A dude of even speed carrying no conditions. -/
def hasteDude : DudeState := ⟨4, 2, 2, []⟩

/-- A dude layer holding a single dude (id 0) at the origin. -/
def fovDudeAt : Coord → Option Nat :=
  fun c => if c = ((0 : Int), (0 : Int)) then some 0 else none

/-! ## Theorems -/

theorem adjacent_coords_nodup (c : Coord) : (adjacent_coords c).Nodup := by
  have hd : DIRECTIONS.Nodup := by decide
  refine List.Nodup.map_on ?_ hd
  intro x _ y _ hxy
  have h1 : c.1 + x.1 = c.1 + y.1 := congrArg Prod.fst hxy
  have h2 : c.2 + x.2 = c.2 + y.2 := congrArg Prod.snd hxy
  have : x.1 = y.1 := by omega
  have : x.2 = y.2 := by omega
  exact Prod.ext ‹x.1 = y.1› ‹x.2 = y.2›

theorem mem_adjacent_coords_iff (c x : Coord) :
    x ∈ adjacent_coords c ↔ minimumPath c x = 1 := by
  unfold adjacent_coords DIRECTIONS minimumPath
  simp only [List.mem_map, List.mem_cons, List.not_mem_nil, or_false]
  constructor
  · rintro ⟨d, hd, rfl⟩
    rcases hd with h | h | h | h | h | h | h | h <;> subst h <;> simp
  · intro h
    have hx1 : (x.1 - c.1).natAbs ≤ 1 ∧ (x.2 - c.2).natAbs ≤ 1 ∧
        ((x.1 - c.1).natAbs = 1 ∨ (x.2 - c.2).natAbs = 1) := by omega
    refine ⟨(x.1 - c.1, x.2 - c.2), ?_, by simp⟩
    obtain ⟨h1, h2, h3⟩ := hx1
    have e1 : x.1 - c.1 = -1 ∨ x.1 - c.1 = 0 ∨ x.1 - c.1 = 1 := by omega
    have e2 : x.2 - c.2 = -1 ∨ x.2 - c.2 = 0 ∨ x.2 - c.2 = 1 := by omega
    have ene : ¬(x.1 - c.1 = 0 ∧ x.2 - c.2 = 0) := by omega
    rcases e1 with h | h | h <;> rcases e2 with h' | h' | h' <;>
      simp [Prod.ext_iff, h, h'] at *

theorem mem_putList {α : Type} {l : List (α × Int)} {item : α} {p : Int}
    {x : α × Int} : x ∈ putList l item p ↔ x ∈ l ∨ x = (item, p) := by
  induction l with
  | nil => simp [putList]
  | cons e es ih =>
      by_cases h : p < e.2 <;> simp [putList, h, ih] <;> tauto

theorem putList_sorted {α : Type} {l : List (α × Int)} {item : α} {p : Int}
    (hl : l.Pairwise (fun a b => a.2 ≤ b.2)) :
    (putList l item p).Pairwise (fun a b => a.2 ≤ b.2) := by
  induction l with
  | nil => simp [putList]
  | cons e es ih =>
      rcases List.pairwise_cons.mp hl with ⟨he, hes⟩
      by_cases h : p < e.2
      · rw [putList, if_pos h]
        refine List.pairwise_cons.mpr ⟨?_, hl⟩
        intro x hx
        rcases List.mem_cons.mp hx with rfl | hx
        · omega
        · have := he x hx; omega
      · rw [putList, if_neg h]
        refine List.pairwise_cons.mpr ⟨?_, ih hes⟩
        intro x hx
        rcases mem_putList.mp hx with hx | rfl
        · exact he x hx
        · omega

theorem putList_filter_ne {α : Type} {l : List (α × Int)} {item : α}
    {p p' : Int} (hne : p' ≠ p) :
    (putList l item p).filter (fun e => decide (e.2 = p')) =
      l.filter (fun e => decide (e.2 = p')) := by
  induction l with
  | nil => simp [putList, Ne.symm hne]
  | cons e es ih =>
      by_cases h : p < e.2
      · rw [putList, if_pos h]
        simp [List.filter_cons, Ne.symm hne]
      · rw [putList, if_neg h]
        simp only [List.filter_cons, ih]

theorem filter_eq_nil_of_sorted_lt {α : Type} {l : List (α × Int)} {p : Int}
    (hl : l.Pairwise (fun a b => a.2 ≤ b.2)) (hhead : ∀ x ∈ l, p < x.2) :
    l.filter (fun e => decide (e.2 = p)) = [] := by
  induction l with
  | nil => simp
  | cons e es ih =>
      rcases List.pairwise_cons.mp hl with ⟨_, hes⟩
      have hp : p < e.2 := hhead e (List.mem_cons_self e es)
      have : ¬(e.2 = p) := by omega
      simp only [List.filter_cons, decide_eq_true_eq, this, if_false]
      exact ih hes (fun x hx => hhead x (List.mem_cons_of_mem e hx))

theorem putList_filter_eq {α : Type} {l : List (α × Int)} {item : α} {p : Int}
    (hl : l.Pairwise (fun a b => a.2 ≤ b.2)) :
    (putList l item p).filter (fun e => decide (e.2 = p)) =
      l.filter (fun e => decide (e.2 = p)) ++ [(item, p)] := by
  induction l with
  | nil => simp [putList]
  | cons e es ih =>
      rcases List.pairwise_cons.mp hl with ⟨he, hes⟩
      by_cases h : p < e.2
      · rw [putList, if_pos h]
        have h1 : (e :: es).filter (fun e => decide (e.2 = p)) = [] := by
          refine filter_eq_nil_of_sorted_lt hl ?_
          intro x hx
          rcases List.mem_cons.mp hx with rfl | hx
          · exact h
          · have := he x hx; omega
        simp only [h1, List.filter_cons]
        simp [h1]
      · rw [putList, if_neg h]
        by_cases hp : e.2 = p <;> simp [List.filter_cons, hp, ih hes]

theorem mkQueue_invariant {α : Type} (puts : List (α × Int)) :
    ∀ l : List (α × Int), l.Pairwise (fun a b => a.2 ≤ b.2) →
      ((puts.foldl (fun (q : PQ α) e => q.put e.1 e.2) ⟨l, 0⟩)._list.Pairwise
          (fun a b => a.2 ≤ b.2) ∧
        ∀ p : Int,
          (puts.foldl (fun (q : PQ α) e => q.put e.1 e.2) ⟨l, 0⟩)._list.filter
              (fun e => decide (e.2 = p)) =
            l.filter (fun e => decide (e.2 = p)) ++
              puts.filter (fun e => decide (e.2 = p))) := by
  induction puts with
  | nil => intro l hl; exact ⟨hl, fun p => by simp⟩
  | cons e rest ih =>
      intro l hl
      have hstep : (⟨l, 0⟩ : PQ α).put e.1 e.2 = ⟨putList l e.1 e.2, 0⟩ := rfl
      have hsorted : (putList l e.1 e.2).Pairwise (fun a b => a.2 ≤ b.2) :=
        putList_sorted hl
      obtain ⟨ih1, ih2⟩ := ih (putList l e.1 e.2) hsorted
      constructor
      · simpa [List.foldl_cons, hstep] using ih1
      · intro p
        have := ih2 p
        by_cases hp : e.2 = p
        · subst hp
          simp only [List.foldl_cons, hstep, this, putList_filter_eq hl,
            List.filter_cons, List.append_assoc]
          simp
        · simp only [List.foldl_cons, hstep, this,
            putList_filter_ne (Ne.symm hp), List.filter_cons]
          simp [hp]

theorem drainAux_eq {α : Type} :
    ∀ (l : List (α × Int)) (lp : Int), drainAux l.length ⟨l, lp⟩ = l.map Prod.fst
  | [], _ => rfl
  | e :: es, _ => by
      simp only [List.length_cons, drainAux, PQ.get, List.map_cons]
      exact congrArg (e.1 :: ·) (drainAux_eq es e.2)

/-- C1.  Scheduler ordering: starting from a fresh `PriorityQueue`, after any
sequence of `put(item, priority)` calls, (a) the queue's internal entry list
is sorted by non-decreasing priority, (b) successive `get()` calls return
exactly the items of that list front to back, and (c) for every priority `p`
the entries carrying priority `p` appear in exactly their original insertion
order (stable FIFO).  Together: `get()` returns items in non-decreasing
priority order, ties in insertion order. -/
theorem priorityQueue_ordering_stable {α : Type} (puts : List (α × Int)) :
    ((mkQueue puts)._list.map Prod.snd).Pairwise (· ≤ ·) ∧
      (mkQueue puts).drain = (mkQueue puts)._list.map Prod.fst ∧
      ∀ p : Int,
        (mkQueue puts)._list.filter (fun e => decide (e.2 = p)) =
          puts.filter (fun e => decide (e.2 = p)) := by
  have hbase : ([] : List (α × Int)).Pairwise (fun a b => a.2 ≤ b.2) := by simp
  obtain ⟨h1, h2⟩ := mkQueue_invariant puts [] hbase
  have hq : mkQueue puts = puts.foldl (fun q e => q.put e.1 e.2) ⟨[], 0⟩ := rfl
  refine ⟨?_, ?_, ?_⟩
  · rw [hq]
    exact List.pairwise_map.mpr h1
  · rw [hq]
    have : (puts.foldl (fun (q : PQ α) e => q.put e.1 e.2) ⟨[], 0⟩) =
        ⟨(puts.foldl (fun (q : PQ α) e => q.put e.1 e.2) ⟨[], 0⟩)._list,
          (puts.foldl (fun (q : PQ α) e => q.put e.1 e.2) ⟨[], 0⟩).last_item_priority⟩ := rfl
    rw [PQ.drain, this]
    exact drainAux_eq _ _
  · intro p
    have := h2 p
    simpa [hq] using this

theorem idxsToErase_lt {β : Type} (P : β → Bool) (l : List β) :
    ∀ i ∈ idxsToErase P l, i < l.length := by
  intro i hi
  rw [idxsToErase, List.mem_reverse, List.mem_filter] at hi
  exact List.mem_range.mp hi.1

theorem idxsToErase_sorted {β : Type} (P : β → Bool) (l : List β) :
    (idxsToErase P l).Pairwise (· > ·) := by
  rw [idxsToErase, List.pairwise_reverse]
  exact List.Pairwise.filter _ (List.pairwise_lt_range l.length)

theorem eraseAtIdxs_append {β : Type} (x : β) :
    ∀ (idxs : List Nat) (l : List β), idxs.Pairwise (· > ·) →
      (∀ i ∈ idxs, i < l.length) →
      eraseAtIdxs (l ++ [x]) idxs = eraseAtIdxs l idxs ++ [x] := by
  intro idxs
  induction idxs with
  | nil => intro l _ _; rfl
  | cons i rest ih =>
      intro l hpw hlt
      rcases List.pairwise_cons.mp hpw with ⟨hhead, htail⟩
      have hi : i < l.length := hlt i (List.mem_cons_self i rest)
      have h1 : (l ++ [x]).eraseIdx i = l.eraseIdx i ++ [x] :=
        List.eraseIdx_append_of_lt_length hi [x]
      have h2 : ∀ j ∈ rest, j < (l.eraseIdx i).length := by
        intro j hj
        have hji : j < i := hhead j hj
        rw [List.length_eraseIdx, if_pos hi]
        omega
      show eraseAtIdxs ((l ++ [x]).eraseIdx i) rest = eraseAtIdxs (l.eraseIdx i) rest ++ [x]
      rw [h1]
      exact ih (l.eraseIdx i) htail h2

theorem eraseAtIdxs_idxsToErase {β : Type} (P : β → Bool) (l : List β) :
    eraseAtIdxs l (idxsToErase P l) = l.filter (fun b => !P b) := by
  induction l using List.reverseRecOn with
  | nil => rfl
  | append_singleton l x ih =>
      have hq : ∀ i ∈ List.range l.length,
          (fun i => match (l ++ [x])[i]? with
            | some e => P e
            | none => false) i =
          (fun i => match l[i]? with
            | some e => P e
            | none => false) i := by
        intro i hi
        have : (l ++ [x])[i]? = l[i]? :=
          List.getElem?_append_left (List.mem_range.mp hi)
        simp only [this]
      have hidx : idxsToErase P (l ++ [x]) =
          (if P x then [l.length] else []) ++ idxsToErase P l := by
        rw [idxsToErase, idxsToErase]
        have hlen : (l ++ [x]).length = l.length + 1 := by simp
        rw [hlen, List.range_succ, List.filter_append, List.filter_congr hq,
          List.reverse_append]
        have hget : (l ++ [x])[l.length]? = some x := List.getElem?_concat_length l x
        by_cases hPx : P x <;> simp [hget, hPx]
      rw [hidx]
      by_cases hPx : P x
      · rw [if_pos hPx]
        have h0 : eraseAtIdxs (l ++ [x]) (l.length :: idxsToErase P l) =
            eraseAtIdxs ((l ++ [x]).eraseIdx l.length) (idxsToErase P l) := rfl
        have h1 : (l ++ [x]).eraseIdx l.length = l := by
          rw [List.eraseIdx_append_of_length_le (le_refl l.length)]
          simp
        simp only [List.singleton_append, h0, h1, ih]
        simp [hPx]
      · rw [if_neg hPx, List.nil_append]
        rw [eraseAtIdxs_append x (idxsToErase P l) l (idxsToErase_sorted P l)
          (idxsToErase_lt P l), ih]
        simp [hPx]

theorem PQ_erase_filter {α : Type} [DecidableEq α] (q : PQ α) (item : α)
    (q' : PQ α) (h : q.erase item = some q') :
    q'._list = q._list.filter (fun e => !(decide (e.1 = item))) := by
  rw [PQ.erase] at h
  by_cases hnil : idxsToErase (fun e => decide (e.1 = item)) q._list = []
  · simp [hnil] at h
  · simp only [hnil, if_false, Option.some.injEq] at h
    rw [← h]
    exact eraseAtIdxs_idxsToErase _ _

theorem PQ_erase_not_mem {α : Type} [DecidableEq α] (q : PQ α) (item : α)
    (q' : PQ α) (h : q.erase item = some q') :
    item ∉ q'._list.map Prod.fst := by
  rw [PQ_erase_filter q item q' h]
  intro hmem
  rcases List.mem_map.mp hmem with ⟨e, he, rfl⟩
  rcases List.mem_filter.mp he with ⟨_, hkeep⟩
  simp at hkeep

theorem bfsBatch_cons (parent c : Coord) (t : List Coord)
    (acc : List Coord × Preds) :
    bfsBatch parent (c :: t) acc =
      bfsBatch parent t
        ((if c ∈ acc.1 then acc.1 else acc.1 ++ [c]),
          predsUpdate acc.2 c (some parent)) := rfl

theorem bfsBatch_fst_mem (parent : Coord) :
    ∀ (batch : List Coord) (acc : List Coord × Preds) (x : Coord),
      x ∈ (bfsBatch parent batch acc).1 ↔ x ∈ acc.1 ∨ x ∈ batch := by
  intro batch
  induction batch with
  | nil => intro acc x; simp [bfsBatch]
  | cons c t ih =>
      intro acc x
      rw [bfsBatch_cons, ih]
      by_cases hc : c ∈ acc.1
      · simp only [hc, if_true, List.mem_cons]
        constructor
        · tauto
        · rintro (h | rfl | h)
          · exact Or.inl h
          · exact Or.inl hc
          · exact Or.inr h
      · simp only [hc, if_false, List.mem_append, List.mem_cons,
          List.mem_singleton]
        tauto

theorem bfsBatch_fst_nodup (parent : Coord) :
    ∀ (batch : List Coord) (acc : List Coord × Preds),
      acc.1.Nodup → (bfsBatch parent batch acc).1.Nodup := by
  intro batch
  induction batch with
  | nil => intro acc h; exact h
  | cons c t ih =>
      intro acc h
      rw [bfsBatch_cons]
      refine ih _ ?_
      by_cases hc : c ∈ acc.1
      · simpa [hc] using h
      · simp only [hc, if_false]
        exact List.Nodup.append h (List.nodup_singleton c)
          (by simpa using hc)

theorem bfsBatch_preds_not_mem (parent : Coord) :
    ∀ (batch : List Coord) (acc : List Coord × Preds) (x : Coord),
      x ∉ batch → (bfsBatch parent batch acc).2 x = acc.2 x := by
  intro batch
  induction batch with
  | nil => intro acc x _; rfl
  | cons c t ih =>
      intro acc x hx
      rw [bfsBatch_cons, ih]
      · have : x ≠ c := fun h => hx (h ▸ List.mem_cons_self c t)
        simp [predsUpdate, this]
      · exact fun h => hx (List.mem_cons_of_mem c h)

theorem bfsBatch_preds_mem (parent : Coord) :
    ∀ (batch : List Coord) (acc : List Coord × Preds) (x : Coord),
      x ∈ batch → (bfsBatch parent batch acc).2 x = some (some parent) := by
  intro batch
  induction batch with
  | nil => intro acc x hx; simp at hx
  | cons c t ih =>
      intro acc x hx
      by_cases hxt : x ∈ t
      · rw [bfsBatch_cons]; exact ih _ x hxt
      · have hxc : x = c := by
          rcases List.mem_cons.mp hx with h | h
          · exact h
          · exact absurd h hxt
        subst hxc
        rw [bfsBatch_cons, bfsBatch_preds_not_mem parent t _ x hxt]
        simp [predsUpdate]

theorem bfsRoundFold_fst_mem (settled horizon : List Coord)
    (adj : Coord → List Coord) :
    ∀ (hl : List Coord) (acc : List Coord × Preds) (c : Coord),
      c ∈ (hl.foldl (bfsRoundStep settled horizon adj) acc).1 ↔
        c ∈ acc.1 ∨ ∃ h ∈ hl, c ∈ adj h ∧ c ∉ settled ∧ c ∉ horizon := by
  intro hl
  induction hl with
  | nil => intro acc c; simp
  | cons h t ih =>
      intro acc c
      rw [List.foldl_cons, ih]
      have hF : c ∈ (bfsRoundStep settled horizon adj acc h).1 ↔
          c ∈ acc.1 ∨ (c ∈ adj h ∧ c ∉ settled ∧ c ∉ horizon ∧ c ∉ acc.1) := by
        rw [bfsRoundStep, bfsBatch_fst_mem, List.mem_filter]
        simp only [Bool.and_eq_true, Bool.not_eq_true', decide_eq_false_iff_not]
        tauto
      rw [hF]
      simp only [List.mem_cons]
      constructor
      · rintro ((hc | ⟨h1, h2, h3, _⟩) | ⟨h', hh', hrest⟩)
        · exact Or.inl hc
        · exact Or.inr ⟨h, Or.inl rfl, h1, h2, h3⟩
        · exact Or.inr ⟨h', Or.inr hh', hrest⟩
      · rintro (hc | ⟨h', hh' | hh', hrest⟩)
        · exact Or.inl (Or.inl hc)
        · subst hh'
          by_cases hacc : c ∈ acc.1
          · exact Or.inl (Or.inl hacc)
          · exact Or.inl (Or.inr ⟨hrest.1, hrest.2.1, hrest.2.2, hacc⟩)
        · exact Or.inr ⟨h', hh', hrest⟩

theorem bfsRoundFold_fst_nodup (settled horizon : List Coord)
    (adj : Coord → List Coord) :
    ∀ (hl : List Coord) (acc : List Coord × Preds),
      acc.1.Nodup → (hl.foldl (bfsRoundStep settled horizon adj) acc).1.Nodup := by
  intro hl
  induction hl with
  | nil => intro acc h; exact h
  | cons h t ih =>
      intro acc hacc
      rw [List.foldl_cons]
      exact ih _ (bfsBatch_fst_nodup h _ acc hacc)

theorem bfsRoundFold_preds (settled horizon : List Coord)
    (adj : Coord → List Coord) :
    ∀ (hl : List Coord) (acc : List Coord × Preds),
      (∀ c, c ∉ (hl.foldl (bfsRoundStep settled horizon adj) acc).1 →
          (hl.foldl (bfsRoundStep settled horizon adj) acc).2 c = acc.2 c) ∧
      (∀ c, c ∈ acc.1 →
          (hl.foldl (bfsRoundStep settled horizon adj) acc).2 c = acc.2 c) ∧
      (∀ c, c ∈ (hl.foldl (bfsRoundStep settled horizon adj) acc).1 →
          c ∉ acc.1 → ∃ h ∈ hl, c ∈ adj h ∧
            (hl.foldl (bfsRoundStep settled horizon adj) acc).2 c =
              some (some h)) := by
  intro hl
  induction hl with
  | nil =>
      intro acc
      refine ⟨fun c _ => rfl, fun c _ => rfl, fun c hc hc2 => absurd hc hc2⟩
  | cons h t ih =>
      intro acc
      set F := bfsRoundStep settled horizon adj with hFdef
      set batch := (adj h).filter
        (fun c => !decide (c ∈ settled) && !decide (c ∈ horizon) &&
          !decide (c ∈ acc.1)) with hbatch
      have hFacc : F acc h = bfsBatch h batch acc := rfl
      obtain ⟨ih1, ih2, ih3⟩ := ih (F acc h)
      have hmono : ∀ c, c ∈ (F acc h).1 →
          c ∈ (t.foldl F (F acc h)).1 := by
        intro c hc
        rw [bfsRoundFold_fst_mem]
        exact Or.inl hc
      have hbatch_sub : ∀ c, c ∈ batch → c ∈ (F acc h).1 := by
        intro c hc
        rw [hFacc, bfsBatch_fst_mem]
        exact Or.inr hc
      have hbatch_not_acc : ∀ c, c ∈ acc.1 → c ∉ batch := by
        intro c hc hmem
        rcases List.mem_filter.mp hmem with ⟨_, hcond⟩
        simp only [Bool.and_eq_true, Bool.not_eq_true',
          decide_eq_false_iff_not] at hcond
        exact hcond.2 hc
      refine ⟨?_, ?_, ?_⟩
      · intro c hc
        rw [List.foldl_cons] at hc ⊢
        have h1 : c ∉ (F acc h).1 := fun hmem => hc (hmono c hmem)
        have h2 : c ∉ batch := fun hmem => h1 (hbatch_sub c hmem)
        rw [ih1 c hc, hFacc, bfsBatch_preds_not_mem h batch acc c h2]
      · intro c hc
        rw [List.foldl_cons]
        have h1 : c ∈ (F acc h).1 := by
          rw [hFacc, bfsBatch_fst_mem]; exact Or.inl hc
        rw [ih2 c h1, hFacc,
          bfsBatch_preds_not_mem h batch acc c (hbatch_not_acc c hc)]
      · intro c hc hnacc
        rw [List.foldl_cons] at hc ⊢
        by_cases hFm : c ∈ (F acc h).1
        · have hcb : c ∈ batch := by
            rw [hFacc, bfsBatch_fst_mem] at hFm
            rcases hFm with hm | hm
            · exact absurd hm hnacc
            · exact hm
          have hadjm : c ∈ adj h := (List.mem_filter.mp hcb).1
          refine ⟨h, List.mem_cons_self h t, hadjm, ?_⟩
          rw [ih2 c hFm, hFacc, bfsBatch_preds_mem h batch acc c hcb]
        · obtain ⟨h', hh', hadj', heq⟩ := ih3 c hc hFm
          exact ⟨h', List.mem_cons_of_mem h hh', hadj', heq⟩

theorem bfsRound_horizon_mem (adj : Coord → List Coord) (s : BfsState)
    (c : Coord) :
    c ∈ (bfsRound adj s).horizon ↔
      ∃ h ∈ s.horizon, c ∈ adj h ∧ c ∉ s.settled ∧ c ∉ s.horizon := by
  show c ∈ (s.horizon.foldl (bfsRoundStep s.settled s.horizon adj)
      ([], s.preds)).1 ↔ _
  rw [bfsRoundFold_fst_mem]
  simp

theorem bfsRound_settled (adj : Coord → List Coord) (s : BfsState) :
    (bfsRound adj s).settled = s.settled ++ s.horizon := rfl

theorem bfsRound_preds_frozen (adj : Coord → List Coord) (s : BfsState)
    (c : Coord) (hc : c ∉ (bfsRound adj s).horizon) :
    (bfsRound adj s).preds c = s.preds c := by
  obtain ⟨h1, _, _⟩ :=
    bfsRoundFold_preds s.settled s.horizon adj s.horizon ([], s.preds)
  exact h1 c hc

theorem bfsRound_preds_new (adj : Coord → List Coord) (s : BfsState)
    (c : Coord) (hc : c ∈ (bfsRound adj s).horizon) :
    ∃ h ∈ s.horizon, c ∈ adj h ∧ (bfsRound adj s).preds c = some (some h) := by
  obtain ⟨_, _, h3⟩ :=
    bfsRoundFold_preds s.settled s.horizon adj s.horizon ([], s.preds)
  exact h3 c hc (by simp)

theorem bfsRound_wf (adj : Coord → List Coord) (s : BfsState)
    (h : BfsWF s) : BfsWF (bfsRound adj s) := by
  obtain ⟨h1, h2, h3⟩ := h
  refine ⟨?_, ?_, ?_⟩
  · rw [bfsRound_settled]
    exact List.Nodup.append h1 h2 (fun a ha hb => h3 a hb ha)
  · exact bfsRoundFold_fst_nodup s.settled s.horizon adj s.horizon
      ([], s.preds) (List.nodup_nil)
  · intro c hc
    rw [bfsRound_horizon_mem] at hc
    obtain ⟨h', _, _, hns, hnh⟩ := hc
    rw [bfsRound_settled]
    intro hmem
    rcases List.mem_append.mp hmem with hm | hm
    · exact hns hm
    · exact hnh hm

theorem bfsRound_reach (adj : Coord → List Coord) (source : Coord)
    (s : BfsState)
    (h : ∀ c, c ∈ s.settled ∨ c ∈ s.horizon → Reaches adj source c) :
    ∀ c, c ∈ (bfsRound adj s).settled ∨ c ∈ (bfsRound adj s).horizon →
      Reaches adj source c := by
  intro c hc
  rcases hc with hc | hc
  · rw [bfsRound_settled] at hc
    rcases List.mem_append.mp hc with hm | hm
    · exact h c (Or.inl hm)
    · exact h c (Or.inr hm)
  · rw [bfsRound_horizon_mem] at hc
    obtain ⟨h', hh', hstep, _, _⟩ := hc
    exact Relation.ReflTransGen.tail (h h' (Or.inr hh')) hstep

theorem bfsRound_pred_inv (adj : Coord → List Coord) (s : BfsState)
    (P : Coord → Prop) (hadj : ∀ a x, x ∈ adj a → P x)
    (h : ∀ c, c ∈ s.settled ∨ c ∈ s.horizon → P c) :
    ∀ c, c ∈ (bfsRound adj s).settled ∨ c ∈ (bfsRound adj s).horizon → P c := by
  intro c hc
  rcases hc with hc | hc
  · rw [bfsRound_settled] at hc
    rcases List.mem_append.mp hc with hm | hm
    · exact h c (Or.inl hm)
    · exact h c (Or.inr hm)
  · rw [bfsRound_horizon_mem] at hc
    obtain ⟨h', _, hstep, _, _⟩ := hc
    exact hadj h' c hstep

theorem nodup_length_le_grid (dims source : Coord) (l : List Coord)
    (hnd : l.Nodup)
    (hmem : ∀ c ∈ l, c = source ∨ legalCoordinates dims c = true) :
    l.length ≤ dims.1.toNat * dims.2.toNat + 1 := by
  classical
  set S : Finset Coord :=
    insert source ((Finset.Ico (0 : Int) dims.1) ×ˢ (Finset.Ico (0 : Int) dims.2))
    with hS
  have hsub : l.toFinset ⊆ S := by
    intro c hc
    rcases hmem c (List.mem_toFinset.mp hc) with h | h
    · subst h; exact Finset.mem_insert_self _ _
    · refine Finset.mem_insert_of_mem ?_
      rw [Finset.mem_product, Finset.mem_Ico, Finset.mem_Ico]
      simp only [legalCoordinates, Bool.and_eq_true, decide_eq_true_eq] at h
      exact ⟨⟨h.1.1.1, h.1.1.2⟩, ⟨h.1.2, h.2⟩⟩
  have hcard : l.length ≤ S.card := by
    rw [← List.toFinset_card_of_nodup hnd]
    exact Finset.card_le_card hsub
  have hScard : S.card ≤ dims.1.toNat * dims.2.toNat + 1 := by
    refine le_trans (Finset.card_insert_le _ _) ?_
    rw [Finset.card_product, Int.card_Ico, Int.card_Ico]
    simp
  omega

theorem bfsLoop_unreachable (adj : Coord → List Coord) (dims source dest : Coord)
    (hadj : ∀ a x, x ∈ adj a → legalCoordinates dims x = true)
    (hnr : ¬ Reaches adj source dest) :
    ∀ (fuel : Nat) (s : BfsState), BfsWF s →
      (∀ c, c ∈ s.settled ∨ c ∈ s.horizon → Reaches adj source c) →
      (∀ c, c ∈ s.settled ∨ c ∈ s.horizon →
        c = source ∨ legalCoordinates dims c = true) →
      dims.1.toNat * dims.2.toNat + 2 ≤ fuel + s.settled.length →
      bfsLoop adj (some dest) fuel s = .error .pathfinding := by
  intro fuel
  induction fuel with
  | zero =>
      intro s hwf _ hlegal hbound
      have := nodup_length_le_grid dims source s.settled hwf.1
        (fun c hc => hlegal c (Or.inl hc))
      omega
  | succ fuel ih =>
      intro s hwf hreach hlegal hbound
      rw [bfsLoop]
      have hdns : dest ∉ s.settled := by
        intro hmem
        exact hnr (hreach dest (Or.inl hmem))
      rw [if_neg hdns]
      by_cases hhe : s.horizon.isEmpty = true
      · rw [if_pos hhe]
      · rw [if_neg hhe]
        have hhlen : 1 ≤ s.horizon.length := by
          have hne : s.horizon ≠ [] := fun h => hhe (by simp [h])
          have := List.length_pos.mpr hne
          omega
        refine ih (bfsRound adj s) (bfsRound_wf adj s hwf)
          (bfsRound_reach adj source s hreach)
          (bfsRound_pred_inv adj s
            (fun c => c = source ∨ legalCoordinates dims c = true)
            (fun a x hx => Or.inr (hadj a x hx)) hlegal) ?_
        rw [bfsRound_settled, List.length_append]
        omega

theorem are_immediately_accessible_legal (lvl : LevelG) (a b : Coord)
    (h : are_immediately_accessible lvl a b = true) : lvl.legal b = true := by
  rw [are_immediately_accessible] at h
  split at h <;> simp only [Bool.and_eq_true] at h <;> tauto

theorem adjacent_squares_function_legal (lvl : LevelG) (source destination : Coord)
    (flag : Bool) (a x : Coord)
    (hx : x ∈ adjacent_squares_function lvl source destination flag a) :
    legalCoordinates lvl.dimensions x = true := by
  rw [adjacent_squares_function] at hx
  have hx2 : x ∈ immediately_accessible_squares lvl a := by
    split at hx <;> exact (List.mem_filter.mp hx).1
  have := (List.mem_filter.mp hx2).2
  exact are_immediately_accessible_legal lvl a x this

/-- C5.  Unreachable destination handling: whenever no path exists from
`source` to `destination` in the adjacency graph that the pathfinder searches
(so, per `src/pf.py`, the BFS exhausts its horizon), `find_shortest_path`
terminates and returns the empty list, and no exception escapes: the raised
`exc.PathfindingError` is caught and converted to `[]`. -/
theorem find_shortest_path_unreachable (lvl : LevelG)
    (source destination : Coord) (destination_must_be_clear : Bool)
    (hnr : ¬ Reaches
      (adjacent_squares_function lvl source destination destination_must_be_clear)
      source destination) :
    find_shortest_path lvl source destination destination_must_be_clear =
      .ok [] := by
  set adj := adjacent_squares_function lvl source destination
    destination_must_be_clear with hadjdef
  have hloop : bfsLoop adj (some destination) (pfFuel lvl)
      ⟨[], [source], predsUpdate (fun _ => none) source none⟩ =
      .error .pathfinding := by
    refine bfsLoop_unreachable adj lvl.dimensions source destination
      (fun a x hx => adjacent_squares_function_legal lvl source destination
        destination_must_be_clear a x hx) hnr (pfFuel lvl) _ ?_ ?_ ?_ ?_
    · exact ⟨List.nodup_nil, List.nodup_singleton source, by simp⟩
    · intro c hc
      have : c = source := by
        rcases hc with hc | hc
        · simp at hc
        · simpa using hc
      subst this
      exact Relation.ReflTransGen.refl
    · intro c hc
      rcases hc with hc | hc
      · simp at hc
      · exact Or.inl (by simpa using hc)
    · simp [pfFuel]
  rw [find_shortest_path, find_shortest_path_aux,
    breadth_first_search_predecessors, hloop]
  rfl

theorem minimumPath_eq_chebN (c1 c2 : Coord) :
    minimumPath c1 c2 = (chebN c1 c2 : Int) := by
  rw [minimumPath, chebN]
  omega

theorem minimumPath_eq_one_iff (c1 c2 : Coord) :
    minimumPath c1 c2 = 1 ↔ chebN c1 c2 = 1 := by
  rw [minimumPath_eq_chebN]
  omega

theorem chebN_eq_zero_iff (a c : Coord) : chebN a c = 0 ↔ c = a := by
  rw [chebN, Prod.ext_iff]
  omega

theorem chebN_self (a : Coord) : chebN a a = 0 := by
  rw [chebN]
  omega

theorem chebN_triangle (a b c : Coord) :
    chebN a c ≤ chebN a b + chebN b c := by
  rw [chebN, chebN, chebN]
  omega

theorem stepToward_spec (dims src c : Coord)
    (hsrc : legalCoordinates dims src = true)
    (hc : legalCoordinates dims c = true)
    (k : Nat) (hk : chebN src c = k + 1) :
    legalCoordinates dims (stepToward src c) = true ∧
      chebN src (stepToward src c) = k ∧ chebN (stepToward src c) c = 1 := by
  simp only [legalCoordinates, Bool.and_eq_true, decide_eq_true_eq] at hsrc hc ⊢
  rw [chebN] at hk
  rw [chebN, chebN, stepToward]
  split_ifs <;> simp only [] <;> omega

theorem exists_at_dist (dims src dest : Coord)
    (hsrc : legalCoordinates dims src = true)
    (hdest : legalCoordinates dims dest = true) :
    ∀ m : Nat, m ≤ chebN src dest →
      ∃ c, legalCoordinates dims c = true ∧ chebN src c = m := by
  have key : ∀ j : Nat, j ≤ chebN src dest →
      ∃ c, legalCoordinates dims c = true ∧ chebN src c = chebN src dest - j := by
    intro j
    induction j with
    | zero => intro _; exact ⟨dest, hdest, rfl⟩
    | succ j ih =>
        intro hj
        obtain ⟨c, hcl, hcd⟩ := ih (Nat.le_of_succ_le hj)
        have hpos : chebN src dest - j = (chebN src dest - (j + 1)) + 1 := by
          omega
        obtain ⟨h1, h2, _⟩ := stepToward_spec dims src c hsrc hcl
          (chebN src dest - (j + 1)) (by omega)
        exact ⟨stepToward src c, h1, h2⟩
  intro m hm
  obtain ⟨c, h1, h2⟩ := key (chebN src dest - m) (by omega)
  exact ⟨c, h1, by omega⟩

theorem are_immediately_accessible_open (lvl : LevelG)
    (hpass : ∀ c, lvl.legal c = true → lvl.passable c = true) (a x : Coord) :
    are_immediately_accessible lvl a x = true ↔
      (lvl.legal a = true ∧ lvl.legal x = true ∧ minimumPath a x = 1) := by
  constructor
  · intro h
    rw [are_immediately_accessible] at h
    split at h <;>
      simp only [Bool.and_eq_true, decide_eq_true_eq] at h <;> tauto
  · rintro ⟨h1, h2, h3⟩
    have hb1 : 0 ≤ a.1 ∧ a.1 < lvl.dimensions.1 ∧ 0 ≤ a.2 ∧ a.2 < lvl.dimensions.2 := by
      simpa only [LevelG.legal, legalCoordinates, Bool.and_eq_true,
        decide_eq_true_eq, and_assoc] using h1
    have hb2 : 0 ≤ x.1 ∧ x.1 < lvl.dimensions.1 ∧ 0 ≤ x.2 ∧ x.2 < lvl.dimensions.2 := by
      simpa only [LevelG.legal, legalCoordinates, Bool.and_eq_true,
        decide_eq_true_eq, and_assoc] using h2
    have hca : lvl.isEmpty (a.1, x.2) = true := by
      refine hpass (a.1, x.2) ?_
      simp only [LevelG.legal, legalCoordinates, Bool.and_eq_true,
        decide_eq_true_eq]
      exact ⟨⟨⟨hb1.1, hb1.2.1⟩, hb2.2.2.1⟩, hb2.2.2.2⟩
    have hcx : lvl.isEmpty (x.1, a.2) = true := by
      refine hpass (x.1, a.2) ?_
      simp only [LevelG.legal, legalCoordinates, Bool.and_eq_true,
        decide_eq_true_eq]
      exact ⟨⟨⟨hb2.1, hb2.2.1⟩, hb1.2.2.1⟩, hb1.2.2.2⟩
    have hpa : lvl.isEmpty a = true := hpass a h1
    have hpx : lvl.isEmpty x = true := hpass x h2
    rw [are_immediately_accessible]
    split <;> simp [h1, h2, h3, hpa, hpx, hca, hcx]

theorem adjacent_squares_function_open (lvl : LevelG)
    (hpass : ∀ c, lvl.legal c = true → lvl.passable c = true)
    (hunocc : ∀ c, lvl.occupied c = false)
    (source destination : Coord) (flag : Bool) (a x : Coord) :
    x ∈ adjacent_squares_function lvl source destination flag a ↔
      (lvl.legal a = true ∧ lvl.legal x = true ∧ chebN a x = 1) := by
  rw [adjacent_squares_function]
  have hocc : ∀ (i : Coord) (b : Bool), (!lvl.occupied i || b) = true := by
    intro i b
    rw [hunocc i]
    simp
  have hiam : x ∈ immediately_accessible_squares lvl a ↔
      (lvl.legal a = true ∧ lvl.legal x = true ∧ chebN a x = 1) := by
    rw [immediately_accessible_squares, List.mem_filter,
      mem_adjacent_coords_iff, are_immediately_accessible_open lvl hpass,
      minimumPath_eq_one_iff]
    tauto
  split <;> rw [List.mem_filter] <;> constructor
  · intro h; exact hiam.mp h.1
  · intro h; exact ⟨hiam.mpr h, hocc x _⟩
  · intro h; exact hiam.mp h.1
  · intro h
    refine ⟨hiam.mpr h, ?_⟩
    rw [Bool.or_assoc]
    exact hocc x _

theorem OpenInv_init (lvl : LevelG) (src : Coord)
    (hsrc : lvl.legal src = true) :
    OpenInv lvl src 0
      ⟨[], [src], predsUpdate (fun _ => none) src none⟩ := by
  refine ⟨fun c => by simp, ?_, ?_, ?_⟩
  · intro c
    simp only [List.mem_singleton]
    constructor
    · rintro rfl; exact ⟨hsrc, chebN_self _⟩
    · rintro ⟨_, h0⟩; exact (chebN_eq_zero_iff src c).mp h0
  · simp [predsUpdate]
  · intro c _ h1 h2; omega

theorem OpenInv_round (adj : Coord → List Coord) (lvl : LevelG) (src : Coord)
    (hadj : ∀ a x, x ∈ adj a ↔
      (lvl.legal a = true ∧ lvl.legal x = true ∧ chebN a x = 1))
    (hsrc : lvl.legal src = true) (k : Nat) (s : BfsState)
    (hinv : OpenInv lvl src k s) :
    OpenInv lvl src (k + 1) (bfsRound adj s) := by
  obtain ⟨hS, hH, hPsrc, hP⟩ := hinv
  have hH' : ∀ c, c ∈ (bfsRound adj s).horizon ↔
      (lvl.legal c = true ∧ chebN src c = k + 1) := by
    intro c
    rw [bfsRound_horizon_mem]
    constructor
    · rintro ⟨h, hh, hstep, hns, hnh⟩
      obtain ⟨hhl, hhd⟩ := (hH h).mp hh
      obtain ⟨_, hcl, hdist⟩ := (hadj h c).mp hstep
      refine ⟨hcl, ?_⟩
      have htri := chebN_triangle src h c
      have hge : ¬ (chebN src c < k) := fun hlt => hns ((hS c).mpr ⟨hcl, hlt⟩)
      have hne : ¬ (chebN src c = k) := fun heq => hnh ((hH c).mpr ⟨hcl, heq⟩)
      omega
    · rintro ⟨hcl, hcd⟩
      obtain ⟨hhl, hhd, hhc⟩ := stepToward_spec lvl.dimensions src c hsrc hcl k hcd
      refine ⟨stepToward src c, (hH _).mpr ⟨hhl, hhd⟩,
        (hadj _ c).mpr ⟨hhl, hcl, hhc⟩, ?_, ?_⟩
      · intro hmem
        have := ((hS c).mp hmem).2
        omega
      · intro hmem
        have := ((hH c).mp hmem).2
        omega
  refine ⟨?_, hH', ?_, ?_⟩
  · intro c
    rw [bfsRound_settled, List.mem_append, hS c, hH c]
    constructor
    · rintro (⟨h1, h2⟩ | ⟨h1, h2⟩) <;> exact ⟨h1, by omega⟩
    · rintro ⟨h1, h2⟩
      by_cases hc : chebN src c = k
      · exact Or.inr ⟨h1, hc⟩
      · exact Or.inl ⟨h1, by omega⟩
  · have : src ∉ (bfsRound adj s).horizon := by
      intro hmem
      have := ((hH' src).mp hmem).2
      rw [chebN_self] at this
      omega
    rw [bfsRound_preds_frozen adj s src this]
    exact hPsrc
  · intro c hcl hpos hle
    by_cases hck : chebN src c ≤ k
    · have hnot : c ∉ (bfsRound adj s).horizon := by
        intro hmem
        have := ((hH' c).mp hmem).2
        omega
      rw [bfsRound_preds_frozen adj s c hnot]
      exact hP c hcl hpos hck
    · have hceq : chebN src c = k + 1 := by omega
      have hmem : c ∈ (bfsRound adj s).horizon := (hH' c).mpr ⟨hcl, hceq⟩
      obtain ⟨h, hh, _, heq⟩ := bfsRound_preds_new adj s c hmem
      obtain ⟨hhl, hhd⟩ := (hH h).mp hh
      exact ⟨h, heq, hhl, by omega⟩

theorem bfsLoop_open (adj : Coord → List Coord) (lvl : LevelG)
    (src dest : Coord)
    (hadj : ∀ a x, x ∈ adj a ↔
      (lvl.legal a = true ∧ lvl.legal x = true ∧ chebN a x = 1))
    (hsrc : lvl.legal src = true) (hdest : lvl.legal dest = true) :
    ∀ (fuel k : Nat) (s : BfsState), OpenInv lvl src k s →
      k ≤ chebN src dest + 1 → chebN src dest + 2 - k ≤ fuel →
      ∃ sf, bfsLoop adj (some dest) fuel s = .ok sf ∧
        OpenInv lvl src (chebN src dest + 1) sf := by
  intro fuel
  induction fuel with
  | zero => intro k s _ hk hb; omega
  | succ fuel ih =>
      intro k s hinv hk hb
      by_cases hds : dest ∈ s.settled
      · have hkD : chebN src dest < k := ((hinv.1 dest).mp hds).2
        have hkeq : k = chebN src dest + 1 := by omega
        rw [bfsLoop, if_pos hds]
        exact ⟨s, rfl, hkeq ▸ hinv⟩
      · have hkle : k ≤ chebN src dest := by
          by_contra hlt
          exact hds ((hinv.1 dest).mpr ⟨hdest, by omega⟩)
        obtain ⟨c, hcl, hcd⟩ :=
          exists_at_dist lvl.dimensions src dest hsrc hdest k hkle
        have hcm : c ∈ s.horizon := (hinv.2.1 c).mpr ⟨hcl, hcd⟩
        have hne : s.horizon.isEmpty ≠ true := by
          intro he
          rw [List.isEmpty_iff] at he
          rw [he] at hcm
          simp at hcm
        rw [bfsLoop, if_neg hds, if_neg hne]
        exact ih (k + 1) (bfsRound adj s)
          (OpenInv_round adj lvl src hadj hsrc k s hinv) (by omega) (by omega)

theorem rebuildPath_open (preds : Preds) (lvl : LevelG) (src : Coord) (K : Nat)
    (hsrc0 : preds src = some none)
    (hstep : ∀ c, lvl.legal c = true → 0 < chebN src c → chebN src c ≤ K →
      ∃ h, preds c = some (some h) ∧ lvl.legal h = true ∧
        chebN src h + 1 = chebN src c) :
    ∀ (n fuel : Nat) (current : Coord) (path : List Coord),
      lvl.legal current = true → chebN src current = n → n ≤ K → n < fuel →
      ∃ out, rebuildPath preds src fuel current path = .ok out ∧
        out.length = n + 1 + path.length := by
  intro n
  induction n with
  | zero =>
      intro fuel current path hcl hcd _ hfuel
      obtain ⟨f, rfl⟩ : ∃ f, fuel = f + 1 := ⟨fuel - 1, by omega⟩
      have : current = src := (chebN_eq_zero_iff src current).mp hcd
      subst this
      rw [rebuildPath, hsrc0]
      exact ⟨current :: path, rfl, by simp; omega⟩
  | succ n ih =>
      intro fuel current path hcl hcd hK hfuel
      obtain ⟨f, rfl⟩ : ∃ f, fuel = f + 1 := ⟨fuel - 1, by omega⟩
      obtain ⟨h, hpc, hhl, hhd⟩ := hstep current hcl (by omega) (by omega)
      rw [rebuildPath, hpc]
      obtain ⟨out, hout, hlen⟩ :=
        ih f h (current :: path) hhl (by omega) (by omega) (by omega)
      refine ⟨out, hout, ?_⟩
      rw [hlen]
      simp
      omega

/-- C3.  BFS optimality on an open grid: on a level all of whose in-bounds
cells are passable and free of actors, for any in-bounds source and
destination `find_shortest_path` succeeds and returns a path of exactly
`max |dx| |dy| + 1` cells, where `(dx, dy)` is the coordinate difference
between destination and source (Chebyshev distance plus one for the
inclusive endpoints). -/
theorem find_shortest_path_open_grid (lvl : LevelG)
    (source destination : Coord) (destination_must_be_clear : Bool)
    (hpass : ∀ c, lvl.legal c = true → lvl.passable c = true)
    (hunocc : ∀ c, lvl.occupied c = false)
    (hsrc : lvl.legal source = true) (hdest : lvl.legal destination = true) :
    ∃ p, find_shortest_path lvl source destination destination_must_be_clear =
        .ok p ∧
      p.length = chebN source destination + 1 := by
  set adj := adjacent_squares_function lvl source destination
    destination_must_be_clear with hadjdef
  have hadj : ∀ a x, x ∈ adj a ↔
      (lvl.legal a = true ∧ lvl.legal x = true ∧ chebN a x = 1) :=
    fun a x => adjacent_squares_function_open lvl hpass hunocc
      source destination destination_must_be_clear a x
  have hWb : 0 ≤ source.1 ∧ source.1 < lvl.dimensions.1 ∧
      0 ≤ source.2 ∧ source.2 < lvl.dimensions.2 := by
    simpa only [LevelG.legal, legalCoordinates, Bool.and_eq_true,
      decide_eq_true_eq, and_assoc] using hsrc
  have hDb : 0 ≤ destination.1 ∧ destination.1 < lvl.dimensions.1 ∧
      0 ≤ destination.2 ∧ destination.2 < lvl.dimensions.2 := by
    simpa only [LevelG.legal, legalCoordinates, Bool.and_eq_true,
      decide_eq_true_eq, and_assoc] using hdest
  have hfuel : chebN source destination + 2 ≤ pfFuel lvl := by
    rw [chebN, pfFuel]
    obtain ⟨a1, a2, a3, a4⟩ := hWb
    obtain ⟨b1, b2, b3, b4⟩ := hDb
    have h1 : (destination.1 - source.1).natAbs + 1 ≤ lvl.dimensions.1.toNat := by
      omega
    have h2 : (destination.2 - source.2).natAbs + 1 ≤ lvl.dimensions.2.toNat := by
      omega
    have h3 : 1 ≤ lvl.dimensions.1.toNat := by omega
    have h4 : 1 ≤ lvl.dimensions.2.toNat := by omega
    have h5 : lvl.dimensions.1.toNat ≤ lvl.dimensions.1.toNat * lvl.dimensions.2.toNat :=
      Nat.le_mul_of_pos_right _ (by omega)
    have h6 : lvl.dimensions.2.toNat ≤ lvl.dimensions.1.toNat * lvl.dimensions.2.toNat :=
      Nat.le_mul_of_pos_left _ (by omega)
    omega
  obtain ⟨sf, hloop, hinv⟩ := bfsLoop_open adj lvl source destination hadj hsrc
    hdest (pfFuel lvl) 0 ⟨[], [source], predsUpdate (fun _ => none) source none⟩
    (OpenInv_init lvl source hsrc) (by omega) (by omega)
  obtain ⟨_, _, hPsrc, hPstep⟩ := hinv
  have hbfs : breadth_first_search_predecessors adj source (some destination)
      (pfFuel lvl) = .ok sf.preds := by
    rw [breadth_first_search_predecessors, hloop]
    rfl
  obtain ⟨out, hout, hlen⟩ := rebuildPath_open sf.preds lvl source
    (chebN source destination + 1) hPsrc hPstep (chebN source destination)
    (pfFuel lvl) destination [] hdest rfl (by omega) (by omega)
  have hpd : sf.preds destination ≠ none := by
    by_cases hD : chebN source destination = 0
    · have : destination = source := (chebN_eq_zero_iff source destination).mp hD
      rw [this, hPsrc]
      simp
    · obtain ⟨h, hpc, _, _⟩ := hPstep destination hdest (by omega) (by omega)
      rw [hpc]
      simp
  have haux : find_shortest_path_aux adj source destination (pfFuel lvl) =
      .ok out := by
    rw [find_shortest_path_aux, hbfs]
    rcases hval : sf.preds destination with _ | v
    · exact absurd hval hpd
    · simpa [hval] using hout
  refine ⟨out, ?_, by simpa using hlen⟩
  rw [find_shortest_path, ← hadjdef, haux]

/-! ### The pathfinder edge rule (C4) -/

theorem are_immediately_accessible_eq (lvl : LevelG) (c1 c2 : Coord) :
    are_immediately_accessible lvl c1 c2 =
      (((lvl.legal c1 && lvl.legal c2) && (lvl.isEmpty c1 && lvl.isEmpty c2) &&
          decide (minimumPath c1 c2 = 1)) &&
        (!are_diagonally_adjacent c1 c2 ||
          (lvl.isEmpty (c1.1, c2.2) && lvl.isEmpty (c2.1, c1.2)))) := by
  rw [are_immediately_accessible]
  cases h : are_diagonally_adjacent c1 c2 <;> simp [h]

/-- C4 (counterexample).  On `cornerLevel` the diagonal move `(0,0) → (1,1)`
has exactly one impassable corner cell, `(0,1)`.  The claimed rule (edge
unless BOTH corners are impassable) admits the edge, but the code
(`Level.are_immediately_accessible` requires both corner cells to be empty)
rejects it, so the claimed equivalence fails at this input. -/
theorem pathfinder_edge_claim_cx :
    ¬((((1 : Int), (1 : Int)) ∈
        immediately_accessible_squares cornerLevel (0, 0)) ↔
      edge_rule_as_claimed cornerLevel (0, 0) (1, 1)) := by
  unfold edge_rule_as_claimed
  decide

/-- C4 (amended).  The adjacency relation used by the path finder: an edge
from `src` to `dest` exists iff both cells are legal and passable, the move
is within one step (Chebyshev distance 1), and, for diagonal moves, BOTH
orthogonal corner cells are passable (the code forbids the diagonal as soon
as either corner cell is impassable, not only when both are). -/
theorem pathfinder_edge_rule (lvl : LevelG) (src dest : Coord) :
    dest ∈ immediately_accessible_squares lvl src ↔
      (lvl.legal src = true ∧ lvl.legal dest = true ∧
        lvl.passable src = true ∧ lvl.passable dest = true ∧
        minimumPath src dest = 1 ∧
        (are_diagonally_adjacent src dest = true →
          (lvl.passable (src.1, dest.2) = true ∧
            lvl.passable (dest.1, src.2) = true))) := by
  rw [immediately_accessible_squares, List.mem_filter, mem_adjacent_coords_iff,
    are_immediately_accessible_eq]
  simp only [LevelG.isEmpty, Bool.and_eq_true, Bool.or_eq_true,
    Bool.not_eq_true', decide_eq_true_eq]
  constructor
  · rintro ⟨h1, ⟨⟨⟨hl1, hl2⟩, hp1, hp2⟩, _⟩, hcor⟩
    refine ⟨hl1, hl2, hp1, hp2, h1, ?_⟩
    intro hdiag
    rcases hcor with hfalse | hc
    · rw [hdiag] at hfalse; cases hfalse
    · exact hc
  · rintro ⟨hl1, hl2, hp1, hp2, h1, hcor⟩
    refine ⟨h1, ⟨⟨⟨hl1, hl2⟩, hp1, hp2⟩, h1⟩, ?_⟩
    by_cases hdiag : are_diagonally_adjacent src dest = true
    · exact Or.inr (hcor hdiag)
    · exact Or.inl (by simpa using hdiag)

/-! ### Hit points (C10) -/

/-- C10.  Hit-point cap: `Dude.setHP(newHP)` always leaves the current HP at
`min newHP max_HP`; in particular the current HP never exceeds the
maximum. -/
theorem setHP_caps_at_max (d : DudeState) (newHP : Int) :
    (setHP d newHP).cur_HP = min newHP d.max_HP := by
  rw [setHP]
  split_ifs with h <;> simp <;> omega

/-! ### Conditions (C6, C7) -/

/-- C6 (counterexample).  Attaching Haste divides the speed with Python 2
floor division and cancelling doubles it, so a dude of speed 1 ends with
speed `(1 fdiv 2) * 2 = 0 ≠ 1`: attach-then-cancel does not restore the
speed for every integer speed value. -/
theorem haste_attach_cancel_cx :
    ((giveCondition ⟨1, 2, 2, []⟩ (Haste 12)).bind
        (fun d1 => removeCondition d1 "haste")).map DudeState.speed ≠
      some 1 := by
  decide

/-- C7.  Replace-on-clash attach order: `Dude.giveCondition` behaves exactly
as the specification prescribes — when a same-named condition is present its
cancel hook runs first and it is removed, then the new condition is stored,
then the new condition's attach hook runs; the cancel hook is never
skipped. -/
theorem giveCondition_replace_order (d : DudeState) (condition : Condition) :
    giveCondition d condition = attach_per_spec d condition := by
  rw [giveCondition, attach_per_spec]
  cases h : dictGet d.conditions condition.name with
  | none => simp [h, removeCondition]
  | some old => simp [h, removeCondition, dictDel]

theorem dictGet_eq_none_iff (m : List (String × Condition)) (k : String) :
    dictGet m k = none ↔ ∀ e ∈ m, e.1 ≠ k := by
  rw [dictGet]
  simp [List.find?_eq_none]

theorem dictSet_absent (m : List (String × Condition)) (k : String)
    (v : Condition) (h : ∀ e ∈ m, e.1 ≠ k) : dictSet m k v = m ++ [(k, v)] := by
  rw [dictSet, if_neg]
  intro hany
  rw [List.any_eq_true] at hany
  obtain ⟨e, he, hek⟩ := hany
  exact h e he (by simpa using hek)

theorem dictGet_append_self (m : List (String × Condition)) (k : String)
    (v : Condition) (h : ∀ e ∈ m, e.1 ≠ k) :
    dictGet (m ++ [(k, v)]) k = some v := by
  induction m with
  | nil => simp [dictGet]
  | cons e t ih =>
      have hek : e.1 ≠ k := h e (List.mem_cons_self e t)
      rw [dictGet, List.cons_append,
        List.find?_cons_of_neg _ (by simpa using hek)]
      exact ih (fun x hx => h x (List.mem_cons_of_mem e hx))

/-- C6 (amended).  For a dude that does not already carry a Haste condition
and whose speed is even, attaching Haste (which halves the speed with Python
2 floor division) and then immediately cancelling it (which doubles the
speed) restores the dude's speed to its exact pre-attach value.  (For odd
speeds the floor division loses the low bit — see the counterexample.) -/
theorem haste_attach_cancel_even (d : DudeState) (duration : Int)
    (hno : dictGet d.conditions "haste" = none) (heven : 2 ∣ d.speed) :
    ∃ d2,
      (giveCondition d (Haste duration)).bind
          (fun d1 => removeCondition d1 "haste") = some d2 ∧
        d2.speed = d.speed := by
  have habs : ∀ e ∈ d.conditions, e.1 ≠ "haste" :=
    (dictGet_eq_none_iff _ _).mp hno
  have hname : (Haste duration).name = "haste" := rfl
  have hgive : giveCondition d (Haste duration) =
      some ⟨d.speed.fdiv 2, d.cur_HP, d.max_HP,
        d.conditions ++ [("haste", Haste duration)]⟩ := by
    rw [giveCondition, hname, hno]
    simp only [Option.isSome_none, Bool.false_eq_true, if_false]
    rw [dictSet_absent d.conditions "haste" (Haste duration) habs]
    rfl
  have hremove : removeCondition
      (⟨d.speed.fdiv 2, d.cur_HP, d.max_HP,
        d.conditions ++ [("haste", Haste duration)]⟩ : DudeState) "haste" =
      some ⟨(d.speed.fdiv 2) * 2, d.cur_HP, d.max_HP,
        dictDel (d.conditions ++ [("haste", Haste duration)]) "haste"⟩ := by
    rw [removeCondition]
    have : dictGet (d.conditions ++ [("haste", Haste duration)]) "haste" =
        some (Haste duration) :=
      dictGet_append_self d.conditions "haste" (Haste duration) habs
    rw [this]
    rfl
  refine ⟨_, by rw [hgive, Option.some_bind, hremove], ?_⟩
  show (d.speed.fdiv 2) * 2 = d.speed
  obtain ⟨t, ht⟩ := heven
  rw [ht, Int.mul_fdiv_cancel_left t (by norm_num)]
  omega

/-! ### The monster melee decision (C9) -/

theorem adjacent_of_chebN_one (a b : Coord) (h : chebN a b = 1) :
    adjacent a b = true := by
  rw [chebN] at h
  have h1 : b.1 - a.1 = -1 ∨ b.1 - a.1 = 0 ∨ b.1 - a.1 = 1 := by omega
  have h2 : b.2 - a.2 = -1 ∨ b.2 - a.2 = 0 ∨ b.2 - a.2 = 1 := by omega
  rw [adjacent, decide_eq_true_eq]
  rcases h1 with h1 | h1 | h1 <;> rcases h2 with h2 | h2 | h2 <;>
    rw [h1, h2] <;> norm_num

theorem chebN_comm (a b : Coord) : chebN a b = chebN b a := by
  rw [chebN, chebN]
  omega

/-- C9.  Plain attack at zero special frequency: a FIGHTING monster running
the `CLOSE` AI (`Monster.closeToPlayer`) that stands at Chebyshev distance 1
from the visible player and has `specfreq = 0` always produces the plain
`Attack` action (code STDATK) — and therefore never a `SpecialMelee`
(SPMELEE) — for every possible value `r` of the `random.randint(1, 100)`
draw inside `rng.percentChance`. -/
theorem closeToPlayer_plain_attack (lvl : LevelG)
    (coords player_location : Coord) (spec : String) (r : Int)
    (hadj : chebN coords player_location = 1) (hr : 1 ≤ r) :
    closeToPlayer lvl coords spec 0 player_location r =
      some (MAction.attack
        "%(SOURCE_NAME)s attacks %(TARGET_NAME)s! (%(DAMAGE)d)") := by
  have h1 : adjacent player_location coords = true :=
    adjacent_of_chebN_one player_location coords
      (by rw [chebN_comm]; exact hadj)
  have h2 : ¬ percentChance r 0 = true := by
    unfold percentChance
    intro hcontra
    rw [decide_eq_true_eq] at hcontra
    omega
  rw [closeToPlayer, if_pos h1, if_neg h2]

/-! ### Field of view (C8) -/

theorem mem_intRange (a b x : Int) : x ∈ intRange a b ↔ a ≤ x ∧ x < b := by
  rw [intRange]
  constructor
  · intro h
    obtain ⟨i, hi, hx⟩ := List.mem_map.mp h
    rw [List.mem_range] at hi
    omega
  · intro h
    refine List.mem_map.mpr ⟨(x - a).toNat, ?_, ?_⟩
    · rw [List.mem_range]; omega
    · omega

theorem mem_setAdd {γ : Type} [DecidableEq γ] (l : List γ) (x y : γ) :
    y ∈ setAdd l x ↔ y ∈ l ∨ y = x := by
  rw [setAdd]
  split_ifs with h
  · constructor
    · exact Or.inl
    · rintro (hy | rfl)
      · exact hy
      · exact h
  · rw [List.mem_append, List.mem_singleton]

theorem fovInner_fst {δ : Type} [DecidableEq δ] (in_fov : Coord → Bool)
    (dudeAt : Coord → Option δ) (origin : Coord) (i : Int)
    (acc : List Coord × List δ) (j : Int) :
    (fovInner in_fov dudeAt origin i acc j).1 =
      if in_fov (i, j) = true then setAdd acc.1 (i, j) else acc.1 := by
  rw [fovInner]
  by_cases h1 : in_fov (i, j) = true
  · rw [if_pos h1, if_pos h1]
    by_cases h2 : (i, j) ≠ origin
    · rw [if_pos h2]
      cases dudeAt (i, j) <;> rfl
    · rw [if_neg h2]
  · rw [if_neg h1, if_neg h1]

theorem fovInner_snd_sub {δ : Type} [DecidableEq δ] (in_fov : Coord → Bool)
    (dudeAt : Coord → Option δ) (origin : Coord) (i : Int)
    (acc : List Coord × List δ) (j : Int) (d : δ)
    (hd : d ∈ (fovInner in_fov dudeAt origin i acc j).2) :
    d ∈ acc.2 ∨ ((i, j) ≠ origin ∧ dudeAt (i, j) = some d) := by
  rw [fovInner] at hd
  by_cases h1 : in_fov (i, j) = true
  · rw [if_pos h1] at hd
    by_cases h2 : (i, j) ≠ origin
    · rw [if_pos h2] at hd
      cases hda : dudeAt (i, j) with
      | none => rw [hda] at hd; exact Or.inl hd
      | some d0 =>
          rw [hda] at hd
          have hd2 : d ∈ setAdd acc.2 d0 := hd
          rcases (mem_setAdd acc.2 d0 d).mp hd2 with hm | heq
          · exact Or.inl hm
          · rw [heq]
            exact Or.inr ⟨h2, rfl⟩
    · rw [if_neg h2] at hd
      exact Or.inl hd
  · rw [if_neg h1] at hd
    exact Or.inl hd

theorem fovInner_fold_fst {δ : Type} [DecidableEq δ] (in_fov : Coord → Bool)
    (dudeAt : Coord → Option δ) (origin : Coord) (i : Int) :
    ∀ (js : List Int) (acc : List Coord × List δ) (c : Coord),
      c ∈ (js.foldl (fovInner in_fov dudeAt origin i) acc).1 →
        c ∈ acc.1 ∨ ∃ j ∈ js, c = (i, j) := by
  intro js
  induction js with
  | nil => intro acc c h; exact Or.inl h
  | cons j t ih =>
      intro acc c h
      rcases ih _ c h with h2 | ⟨j', hj', rfl⟩
      · rw [fovInner_fst] at h2
        by_cases ha : in_fov (i, j) = true
        · rw [if_pos ha] at h2
          rcases (mem_setAdd _ _ _).mp h2 with hm | rfl
          · exact Or.inl hm
          · exact Or.inr ⟨j, List.mem_cons_self j t, rfl⟩
        · rw [if_neg ha] at h2
          exact Or.inl h2
      · exact Or.inr ⟨j', List.mem_cons_of_mem j hj', rfl⟩

theorem fovInner_fold_snd {δ : Type} [DecidableEq δ] (in_fov : Coord → Bool)
    (dudeAt : Coord → Option δ) (origin : Coord) (i : Int) :
    ∀ (js : List Int) (acc : List Coord × List δ) (d : δ),
      d ∈ (js.foldl (fovInner in_fov dudeAt origin i) acc).2 →
        d ∈ acc.2 ∨ ∃ j, (i, j) ≠ origin ∧ dudeAt (i, j) = some d := by
  intro js
  induction js with
  | nil => intro acc d h; exact Or.inl h
  | cons j t ih =>
      intro acc d h
      rcases ih _ d h with h2 | h2
      · rcases fovInner_snd_sub in_fov dudeAt origin i acc j d h2 with h3 | h3
        · exact Or.inl h3
        · exact Or.inr ⟨j, h3⟩
      · exact Or.inr h2

theorem fov_recalculate_fst {δ : Type} [DecidableEq δ] (in_fov : Coord → Bool)
    (dudeAt : Coord → Option δ) (origin : Coord) (c : Coord)
    (h : c ∈ (fov_recalculate in_fov dudeAt origin).1) :
    ∃ i j, origin.1 - FOV_RADIUS ≤ i ∧ i < origin.1 + FOV_RADIUS + 1 ∧
      origin.2 - FOV_RADIUS ≤ j ∧ j < origin.2 + FOV_RADIUS + 1 ∧
      c = (i, j) := by
  rw [fov_recalculate] at h
  have outer : ∀ (is : List Int) (acc : List Coord × List δ),
      c ∈ (is.foldl (fun acc i =>
          (intRange (origin.2 - FOV_RADIUS) (origin.2 + FOV_RADIUS + 1)).foldl
            (fovInner in_fov dudeAt origin i) acc) acc).1 →
        c ∈ acc.1 ∨ ∃ i ∈ is, ∃ j, origin.2 - FOV_RADIUS ≤ j ∧
          j < origin.2 + FOV_RADIUS + 1 ∧ c = (i, j) := by
    intro is
    induction is with
    | nil => intro acc h2; exact Or.inl h2
    | cons i t ih =>
        intro acc h2
        rcases ih _ h2 with h3 | ⟨i', hi', j, hj1, hj2, rfl⟩
        · rcases fovInner_fold_fst in_fov dudeAt origin i _ acc c h3 with h4 | h4
          · exact Or.inl h4
          · obtain ⟨j, hj, rfl⟩ := h4
            rw [mem_intRange] at hj
            exact Or.inr ⟨i, List.mem_cons_self i t, j, hj.1, hj.2, rfl⟩
        · exact Or.inr ⟨i', List.mem_cons_of_mem i hi', j, hj1, hj2, rfl⟩
  rcases outer _ _ h with h2 | ⟨i, hi, j, hj1, hj2, rfl⟩
  · simp at h2
  · rw [mem_intRange] at hi
    exact ⟨i, j, hi.1, hi.2, hj1, hj2, rfl⟩

theorem fov_recalculate_snd {δ : Type} [DecidableEq δ] (in_fov : Coord → Bool)
    (dudeAt : Coord → Option δ) (origin : Coord) (d : δ)
    (h : d ∈ (fov_recalculate in_fov dudeAt origin).2) :
    ∃ cell : Coord, cell ≠ origin ∧ dudeAt cell = some d := by
  rw [fov_recalculate] at h
  have outer : ∀ (is : List Int) (acc : List Coord × List δ),
      d ∈ (is.foldl (fun acc i =>
          (intRange (origin.2 - FOV_RADIUS) (origin.2 + FOV_RADIUS + 1)).foldl
            (fovInner in_fov dudeAt origin i) acc) acc).2 →
        d ∈ acc.2 ∨ ∃ cell : Coord, cell ≠ origin ∧ dudeAt cell = some d := by
    intro is
    induction is with
    | nil => intro acc h2; exact Or.inl h2
    | cons i t ih =>
        intro acc h2
        rcases ih _ h2 with h3 | h3
        · rcases fovInner_fold_snd in_fov dudeAt origin i _ acc d h3 with h4 | h4
          · exact Or.inl h4
          · obtain ⟨j, hj, hda⟩ := h4
            exact Or.inr ⟨(i, j), hj, hda⟩
        · exact Or.inr h3
  rcases outer _ _ h with h2 | h2
  · simp at h2
  · exact h2

/-- C8.  Visibility result well-formedness: whatever the libtcod visibility
oracle reports, every cell collected by `fov.recalculate` lies inside the
square of side `2*FOV_RADIUS + 1` centered on the viewpoint, and the set of
visible dudes never contains the dude standing at the viewpoint (the viewer
itself), provided that dude occupies no other square of the layer. -/
theorem fov_bounded_and_excludes_viewer {δ : Type} [DecidableEq δ]
    (in_fov : Coord → Bool) (dudeAt : Coord → Option δ) (origin : Coord)
    (viewer : δ) (_hv : dudeAt origin = some viewer)
    (hone : ∀ c, dudeAt c = some viewer → c = origin) :
    (∀ c ∈ (fov_recalculate in_fov dudeAt origin).1,
        (c.1 - origin.1).natAbs ≤ FOV_RADIUS.toNat ∧
          (c.2 - origin.2).natAbs ≤ FOV_RADIUS.toNat) ∧
      viewer ∉ (fov_recalculate in_fov dudeAt origin).2 := by
  constructor
  · intro c hc
    obtain ⟨i, j, h1, h2, h3, h4, rfl⟩ :=
      fov_recalculate_fst in_fov dudeAt origin c hc
    constructor <;> simp only [] <;> rw [show FOV_RADIUS = 4 from rfl] at * <;>
      omega
  · intro hmem
    obtain ⟨cell, hne, hda⟩ :=
      fov_recalculate_snd in_fov dudeAt origin viewer hmem
    exact hne (hone cell hda)

/-! ### The turn driver (C2) -/

theorem mem_map_fst_putList {α : Type} (l : List (α × Int)) (item : α)
    (p : Int) (x : α) :
    x ∈ (putList l item p).map Prod.fst ↔ x ∈ l.map Prod.fst ∨ x = item := by
  simp only [List.mem_map]
  constructor
  · rintro ⟨e, he, rfl⟩
    rcases mem_putList.mp he with h | h
    · exact Or.inl ⟨e, h, rfl⟩
    · rw [h]
      exact Or.inr rfl
  · rintro (⟨e, he, rfl⟩ | rfl)
    · exact ⟨e, mem_putList.mpr (Or.inl he), rfl⟩
    · exact ⟨(x, p), mem_putList.mpr (Or.inr rfl), rfl⟩

theorem resetQueue_queue_mem {α : Type} [DecidableEq α] (s : LevelState α)
    (x : α) (h : x ∈ (resetQueue s).queue.map Prod.fst) :
    x ∈ s.events ∨ x = s.player ∨ (x ∈ s.dudes ∧ x ≠ s.player) := by
  have hev : ∀ (es : List α) (l : List (α × Int)) (y : α),
      y ∈ (es.foldl (fun l e => putList l e 0) l).map Prod.fst →
        y ∈ l.map Prod.fst ∨ y ∈ es := by
    intro es
    induction es with
    | nil => intro l y hy; exact Or.inl hy
    | cons e t ih =>
        intro l y hy
        rcases ih _ y hy with h2 | h2
        · rcases (mem_map_fst_putList l e 0 y).mp h2 with h3 | h3
          · exact Or.inl h3
          · rw [h3]
            exact Or.inr (List.mem_cons_self e t)
        · exact Or.inr (List.mem_cons_of_mem e h2)
  have hdu : ∀ (ds : List α) (l : List (α × Int)) (y : α),
      y ∈ (ds.foldl
          (fun l p => if p = s.player then l else putList l p 0) l).map Prod.fst →
        y ∈ l.map Prod.fst ∨ (y ∈ ds ∧ y ≠ s.player) := by
    intro ds
    induction ds with
    | nil => intro l y hy; exact Or.inl hy
    | cons p t ih =>
        intro l y hy
        rcases ih _ y hy with h2 | h2
        · dsimp only at h2
          by_cases hp : p = s.player
          · rw [if_pos hp] at h2
            exact Or.inl h2
          · rw [if_neg hp] at h2
            rcases (mem_map_fst_putList l p 0 y).mp h2 with h3 | h3
            · exact Or.inl h3
            · rw [h3]
              exact Or.inr ⟨List.mem_cons_self p t, hp⟩
        · exact Or.inr ⟨List.mem_cons_of_mem p h2.1, h2.2⟩
  have h0 : (resetQueue s).queue = s.dudes.foldl
      (fun l p => if p = s.player then l else putList l p 0)
      (putList (s.events.foldl (fun l e => putList l e 0) []) s.player 0) := rfl
  rw [h0] at h
  rcases hdu _ _ x h with h2 | h2
  · rcases (mem_map_fst_putList _ s.player 0 x).mp h2 with h3 | h3
    · rcases hev _ _ x h3 with h4 | h4
      · simp at h4
      · exact Or.inl h4
    · exact Or.inr (Or.inl h3)
  · exact Or.inr (Or.inr h2)

theorem resetQueue_deadgone {α : Type} [DecidableEq α] (s : LevelState α)
    (h : DeadGone s) : DeadGone (resetQueue s) := by
  intro x hx
  have hx0 : s.alive x = false := hx
  obtain ⟨h1, h2, _, h4⟩ := h x hx0
  refine ⟨h1, h2, ?_, h4⟩
  intro hmem
  rcases resetQueue_queue_mem s x hmem with hm | hm | hm
  · exact h2 hm
  · exact h4 hm
  · exact h1 hm.1

theorem actLoop_spec {α : Type}
    (actFn : α → LevelState α → LevelState α × Int) (a : α)
    (hAct : ∀ x t, DeadGone t → DeadGone (actFn x t).1) :
    ∀ (fuel : Nat) (s : LevelState α) (t : Int)
      (res : LevelState α × Int × List (LevelState α)),
      actLoop actFn a fuel s t = some res →
      (∀ sc ∈ res.2.2, sc.alive a = true) ∧ (DeadGone s → DeadGone res.1) := by
  intro fuel
  induction fuel with
  | zero =>
      intro s t res h
      rw [actLoop] at h
      by_cases hc : t = 0 ∧ s.alive a = true
      · rw [if_pos hc] at h
        exact absurd h (by simp)
      · rw [if_neg hc, Option.some.injEq] at h
        rw [← h]
        exact ⟨by simp, fun hd => hd⟩
  | succ fuel ih =>
      intro s t res h
      rw [actLoop] at h
      by_cases hc : t = 0 ∧ s.alive a = true
      · rw [if_pos hc] at h
        cases hrec : actLoop actFn a fuel (actFn a s).1 (actFn a s).2 with
        | none => rw [hrec] at h; exact absurd h (by simp)
        | some r2 =>
            obtain ⟨s2, t2, log2⟩ := r2
            rw [hrec, Option.some.injEq] at h
            obtain ⟨hlog, hdg⟩ := ih _ _ _ hrec
            rw [← h]
            constructor
            · intro sc hsc
              rcases List.mem_cons.mp hsc with heq | hm
              · rw [heq]
                exact hc.2
              · exact hlog sc hm
            · intro hd
              exact hdg (hAct a s hd)
      · rw [if_neg hc, Option.some.injEq] at h
        rw [← h]
        exact ⟨by simp, fun hd => hd⟩

theorem killStage3_not_mem {α : Type} [DecidableEq α] (target : α)
    (s : LevelState α) :
    target ∉ (killStage3 target s).queue.map Prod.fst := by
  rw [killStage3]
  by_cases hq : target ∈ s.queue.map Prod.fst
  · rw [if_pos hq]
    intro hmem
    have hmem2 : target ∈ (eraseQueueEntries target s.queue).map Prod.fst :=
      hmem
    rw [eraseQueueEntries, eraseAtIdxs_idxsToErase] at hmem2
    obtain ⟨e, he, hfst⟩ := List.mem_map.mp hmem2
    obtain ⟨_, hkeep⟩ := List.mem_filter.mp he
    rw [hfst] at hkeep
    simp at hkeep
  · rw [if_neg hq]
    exact hq

theorem levelNextAux_spec {α : Type} [DecidableEq α]
    (actFn : α → LevelState α → LevelState α × Int)
    (hAct : ∀ x t, DeadGone t → DeadGone (actFn x t).1)
    (fuel : Nat) (s0 : LevelState α) (hdg0 : DeadGone s0)
    (s' : LevelState α) (b : α) (log : List (LevelState α))
    (h : levelNextAux actFn fuel s0 = some (s', b, log)) :
    (∀ sc ∈ log, sc.alive b = true) ∧ DeadGone s' := by
  rw [levelNextAux] at h
  split at h
  · exact absurd h (by simp)
  · rename_i e rest hq0
    split at h
    · exact absurd h (by simp)
    · rename_i s2 ticks log2 hal
      rw [Option.some.injEq] at h
      injection h with hA h23
      injection h23 with hB hC
      have hdg1 : DeadGone { s0 with
          time := s0.time + (e.2 - s0.lastPriority),
          queue := rest,
          lastPriority := e.2 } := by
        intro x hx
        obtain ⟨a1, a2, a3, a4⟩ := hdg0 x hx
        refine ⟨a1, a2, ?_, a4⟩
        intro hmem
        apply a3
        rw [hq0, List.map_cons]
        exact List.mem_cons_of_mem _ hmem
      obtain ⟨hlog2, hdg2fn⟩ := actLoop_spec actFn e.1 hAct fuel _ 0 _ hal
      have hdg2 : DeadGone s2 := hdg2fn hdg1
      have hdgX : DeadGone (if s2.alive e.1 = true
          then { s2 with queue := putList s2.queue e.1 (s2.time + ticks) }
          else s2) := by
        split_ifs with halive
        · intro x hx
          have hx2 : s2.alive x = false := hx
          obtain ⟨a1, a2, a3, a4⟩ := hdg2 x hx2
          refine ⟨a1, a2, ?_, a4⟩
          intro hmem
          have hmem2 : x ∈ (putList s2.queue e.1 (s2.time + ticks)).map Prod.fst :=
            hmem
          rcases (mem_map_fst_putList _ _ _ _).mp hmem2 with hm | hm
          · exact a3 hm
          · rw [hm] at hx2
            rw [hx2] at halive
            cases halive
        · exact hdg2
      constructor
      · intro sc hsc
        rw [← hB]
        rw [← hC] at hsc
        exact hlog2 sc hsc
      · rw [← hA]
        exact hdgX

/-- C2.  Death removal: assuming each actor's `act()` (which may mutate the
whole level, e.g. kill actors through `Level.kill`) preserves the invariant
that a dead actor (`exists()` false) has no presence in the level, then:
(i) `Level.kill` leaves the killed actor with no entry in the queue, (ii)
during `Level.next` every `act()` call is made in a state where the popped
actor's `exists()` is true, (iii) `Level.next` preserves the invariant — so
an actor whose `exists()` has become false is never asked to act again and
is never re-inserted — and in particular (iv) if the popped actor's
`exists()` is false after its act loop, it has no entry in the resulting
queue. -/
theorem level_death_removal {α : Type} [DecidableEq α]
    (actFn : α → LevelState α → LevelState α × Int)
    (s sk s' : LevelState α) (target b : α) (fuel : Nat)
    (log : List (LevelState α))
    (hAct : ∀ x t, DeadGone t → DeadGone (actFn x t).1)
    (hs : DeadGone s)
    (hkill : killLevel target s = some sk)
    (hnext : levelNext actFn fuel s = some (s', b, log)) :
    target ∉ sk.queue.map Prod.fst ∧
      (∀ sc ∈ log, sc.alive b = true) ∧
      DeadGone s' ∧
      (s'.alive b = false → b ∉ s'.queue.map Prod.fst) := by
  have hkillq : target ∉ sk.queue.map Prod.fst := by
    rw [killLevel] at hkill
    split_ifs at hkill with hcond
    rw [Option.some.injEq] at hkill
    rw [← hkill]
    exact killStage3_not_mem target _
  have hdg0 : DeadGone (if s.queue.isEmpty then resetQueue s else s) := by
    split_ifs
    · exact resetQueue_deadgone s hs
    · exact hs
  rw [levelNext] at hnext
  obtain ⟨hlog, hdg'⟩ :=
    levelNextAux_spec actFn hAct fuel _ hdg0 s' b log hnext
  exact ⟨hkillq, hlog, hdg', fun hdead => (hdg' b hdead).2.2.1⟩

/-! ### Witnesses: the theorems above applied at concrete inputs -/

theorem find_shortest_path_open_grid_witness :
    ∃ p, find_shortest_path openLevel (0, 0) (2, 1) false = .ok p ∧
      p.length = chebN (0, 0) (2, 1) + 1 :=
  find_shortest_path_open_grid openLevel (0, 0) (2, 1) false
    (fun _ _ => rfl) (fun _ => rfl) (by decide) (by decide)

theorem find_shortest_path_unreachable_witness :
    find_shortest_path walledLevel (0, 0) (1, 0) false = .ok [] :=
  find_shortest_path_unreachable walledLevel (0, 0) (1, 0) false (by
    intro h
    rcases Relation.ReflTransGen.cases_head h with heq | ⟨c, hstep, _⟩
    · exact absurd heq (by decide)
    · have hadj : adjacent_squares_function walledLevel (0, 0) (1, 0) false
          (0, 0) = [] := by decide
      have hmem : c ∈ adjacent_squares_function walledLevel (0, 0) (1, 0)
          false (0, 0) := hstep
      rw [hadj] at hmem
      simp at hmem)

theorem haste_attach_cancel_even_witness :
    ∃ d2,
      (giveCondition hasteDude (Haste 12)).bind
          (fun d1 => removeCondition d1 "haste") = some d2 ∧
        d2.speed = hasteDude.speed :=
  haste_attach_cancel_even hasteDude 12 rfl ⟨2, rfl⟩

theorem fov_bounded_and_excludes_viewer_witness :
    (∀ c ∈ (fov_recalculate (fun _ => true) fovDudeAt (0, 0)).1,
        (c.1 - ((0 : Int), (0 : Int)).1).natAbs ≤ FOV_RADIUS.toNat ∧
          (c.2 - ((0 : Int), (0 : Int)).2).natAbs ≤ FOV_RADIUS.toNat) ∧
      (0 : Nat) ∉ (fov_recalculate (fun _ => true) fovDudeAt (0, 0)).2 :=
  fov_bounded_and_excludes_viewer (fun _ => true) fovDudeAt (0, 0) 0 rfl (by
    intro c hc
    by_cases h : c = ((0 : Int), (0 : Int))
    · exact h
    · have hc2 : (if c = ((0 : Int), (0 : Int)) then some 0 else none) =
          some 0 := hc
      rw [if_neg h] at hc2
      exact absurd hc2 (by simp))

theorem closeToPlayer_plain_attack_witness :
    closeToPlayer openLevel (0, 0) "CRITICAL" 0 (1, 1) 50 =
      some (MAction.attack
        "%(SOURCE_NAME)s attacks %(TARGET_NAME)s! (%(DAMAGE)d)") :=
  closeToPlayer_plain_attack openLevel (0, 0) (1, 1) "CRITICAL" 50
    (by decide) (by decide)

theorem level_death_removal_witness :
    (2 : Nat) ∉ demoKilled.queue.map Prod.fst ∧
      (∀ sc ∈ demoLog, sc.alive 1 = true) ∧
      DeadGone demoNext ∧
      (demoNext.alive 1 = false → (1 : Nat) ∉ demoNext.queue.map Prod.fst) :=
  level_death_removal demoAct demoLevel demoKilled demoNext 2 1 3 demoLog
    (fun _ _ h => h)
    (by intro x hx; exact absurd hx (by simp [demoLevel]))
    rfl rfl

end Spirit

